import Mathlib

/-!
# Verification of the `specs-hierarchy` maintenance algorithm

Shallow embedding of `src/lib.rs` (crate `specs-hierarchy`).

Entities are modelled as natural numbers (the crate only ever keys its maps
by `Entity`/`Index`, and never fabricates entities, so the id is enough).
Rust `HashMap`s become association lists (`alGet`/`alInsert`/`alRemove`
reproduce lookup/replace/delete of a map); Rust `HashSet`s become
duplicate-free lists in insertion order (`setInsert`/`setRemove`): the only
place set iteration order is observable is the order of `Removed` events,
which no claim depends on.  Rust code that can panic (`unwrap`, out-of-range
`Vec::remove`/indexing) is modelled in the `Option` monad: `none` means the
Rust code panics.
-/

namespace SpecsHierarchy

/-- Entity handles, externally owned.  Modelled by their id. -/
abbrev Entity := Nat

/-- `HierarchyEvent` from the source: events sent on the internal channel. -/
inductive HierarchyEvent where
  | Modified (e : Entity)
  | Removed (e : Entity)
deriving DecidableEq, Repr

/-- Association-list lookup, mirroring `HashMap::get`. -/
def alGet {α : Type} (m : List (Nat × α)) (k : Nat) : Option α :=
  match m with
  | [] => none
  | (k', v) :: rest => if k = k' then some v else alGet rest k

/-- Association-list insert/replace, mirroring `HashMap::insert`. -/
def alInsert {α : Type} (m : List (Nat × α)) (k : Nat) (v : α) : List (Nat × α) :=
  match m with
  | [] => [(k, v)]
  | (k', v') :: rest => if k = k' then (k, v) :: rest else (k', v') :: alInsert rest k v

/-- Association-list delete, mirroring `HashMap::remove`. -/
def alRemove {α : Type} (m : List (Nat × α)) (k : Nat) : List (Nat × α) :=
  match m with
  | [] => []
  | (k', v') :: rest => if k = k' then rest else (k', v') :: alRemove rest k

/-- `HashSet::insert` on the insertion-order list model. -/
def setInsert (s : List Nat) (x : Nat) : List Nat :=
  if s.contains x then s else s ++ [x]

/-- `HashSet::remove` on the insertion-order list model. -/
def setRemove (s : List Nat) (x : Nat) : List Nat :=
  s.filter (fun y => y ≠ x)

/-- Minimum of a list of naturals, `None` when empty (Rust `Iterator::min`). -/
def listMin? (l : List Nat) : Option Nat :=
  match l with
  | [] => none
  | x :: xs => some (xs.foldl Nat.min x)

/-- Rust `Vec::swap_remove pos`: replace the element at `pos` with the last
element and shorten by one.  Only called with `pos` a valid position found
by `Iterator::position`. -/
def swapRemove (l : List Nat) (pos : Nat) : List Nat :=
  (l.set pos (l.getD (l.length - 1) 0)).dropLast

/-- The state of `Hierarchy<P>` (the fields the algorithm reads and writes;
the reader-id and the per-call `BitSet`s are the event-plumbing and are
replaced by the three event lists passed to `maintain`). -/
structure Hierarchy where
  sorted : List Entity
  entities : List (Nat × Nat)
  children : List (Nat × List Entity)
  current_parent : List (Nat × Entity)
  external_parents : List Nat
  changed : List HierarchyEvent
  scratch_set : List Nat
deriving DecidableEq, Repr

/-- The empty hierarchy (`Hierarchy::new`). -/
def Hierarchy.empty : Hierarchy :=
  { sorted := [], entities := [], children := [], current_parent := []
    external_parents := [], changed := [], scratch_set := [] }

/-- `Hierarchy::all`. -/
def Hierarchy.all (s : Hierarchy) : List Entity := s.sorted

/-- `Hierarchy::children`. -/
def Hierarchy.childrenOf (s : Hierarchy) (e : Entity) : List Entity :=
  (alGet s.children e).getD []

/-- `Hierarchy::parent`. -/
def Hierarchy.parentOf (s : Hierarchy) (e : Entity) : Option Entity :=
  alGet s.current_parent e

/-- `usize::MAX`, the initial value of `min_index` in the removal pass. -/
def usizeMax : Nat := 2 ^ 64 - 1

/-- Phase 1a (source lines 222-227): seed the scratch set with the entity of
every removed-set id that is still in the position index.  The source indexes
`self.sorted[*index]`, which panics when out of range, hence `Option`. -/
def removedScratch (s : Hierarchy) (removedL : List Nat) : Option (List Nat) :=
  removedL.foldlM
    (fun scratch i =>
      match alGet s.entities i with
      | some index =>
        match s.sorted[index]? with
        | some e => some (setInsert scratch e)
        | none => none
      | none => some scratch) []

/-- Phase 1b (lines 228-233): external parents that are no longer alive join
the scratch set. -/
def livenessScratch (alive : Entity → Bool) (external : List Nat)
    (scratch : List Nat) : List Nat :=
  external.foldl (fun sc e => if alive e then sc else setInsert sc e) scratch

/-- Mutable state of the removal scan (lines 236-269).  `kcount` is the loop
index `i` of the source, which equals the number of elements kept so far. -/
structure RState where
  scratch : List Nat
  children : List (Nat × List Entity)
  current_parent : List (Nat × Entity)
  entities : List (Nat × Nat)
  kcount : Nat
  min_index : Nat
deriving Repr

/-- Detach a removed `entity` from its current parent's children list with
`Vec::swap_remove` (lines 253-262). -/
def swapDetach (children : List (Nat × List Entity)) (cp : List (Nat × Entity))
    (entity : Entity) : List (Nat × List Entity) :=
  match alGet cp entity with
  | none => children
  | some p =>
    match alGet children p with
    | none => children
    | some cs =>
      match cs.findIdx? (fun e => e = entity) with
      | some pos => alInsert children p (swapRemove cs pos)
      | none => children

/-- The removal scan (lines 236-269): a single left-to-right pass over
`sorted`, removing an entity when it, or its current parent, is in the
(growing) scratch set.  The source is a `while` loop with in-place
`Vec::remove(i)`; here the kept prefix is returned as a list and `kcount`
plays the role of `i`. -/
def removalPass (st : RState) : List Entity → (List Entity × RState)
  | [] => ([], st)
  | entity :: rest =>
    let rm := st.scratch.contains entity ||
      (match alGet st.current_parent entity with
       | some p => st.scratch.contains p
       | none => false)
    if rm then
      removalPass
        { scratch := setInsert st.scratch entity
          children := alRemove (swapDetach st.children st.current_parent entity) entity
          current_parent := alRemove st.current_parent entity
          entities := alRemove st.entities entity
          kcount := st.kcount
          min_index := if st.kcount < st.min_index then st.kcount else st.min_index }
        rest
    else
      let res := removalPass { st with kcount := st.kcount + 1 } rest
      (entity :: res.1, res.2)

/-- `for i in start..stop { self.entities.insert(self.sorted[i].id(), i) }`
(lines 270-272, 302-304, 364-366).  The indexing `self.sorted[i]` panics when
`i` is out of range, hence `Option`. -/
def reindexRange (m : List (Nat × Nat)) (sorted : List Entity) (start stop : Nat) :
    Option (List (Nat × Nat)) :=
  (List.range' start (stop - start)).foldlM
    (fun m i =>
      match sorted[i]? with
      | some e => some (alInsert m e i)
      | none => none) m

/-- Phase 1 (lines 221-277): build the purge set, cascade it through the
sorted sequence, reindex the suffix from the lowest disturbed index, emit one
`Removed` event per purged entity and drop purged entities from the
external-parents set. -/
def removalPhase (s : Hierarchy) (alive : Entity → Bool) (removedL : List Nat) :
    Option Hierarchy := do
  let scratch0 ← removedScratch s removedL
  let scratch1 := livenessScratch alive s.external_parents scratch0
  if scratch1.isEmpty then
    pure { s with scratch_set := scratch1 }
  else
    let res := removalPass
      { scratch := scratch1, children := s.children, current_parent := s.current_parent
        entities := s.entities, kcount := 0, min_index := usizeMax } s.sorted
    let sorted := res.1
    let st := res.2
    let entities ← reindexRange st.entities sorted st.min_index sorted.length
    pure { sorted := sorted, entities := entities, children := st.children
           current_parent := st.current_parent
           external_parents := st.scratch.foldl setRemove s.external_parents
           changed := s.changed ++ st.scratch.map HierarchyEvent.Removed
           scratch_set := st.scratch }

/-- `children.entry(p).or_insert_with(Vec::default).push(e)`. -/
def childrenPush (children : List (Nat × List Entity)) (p : Entity) (e : Entity) :
    List (Nat × List Entity) :=
  match alGet children p with
  | some cs => alInsert children p (cs ++ [e])
  | none => alInsert children p [e]

/-- One iteration of the insertion loop (lines 281-321), for one entity of
the inserted set that is alive and carries a parent component.  The
`self.entities.get(&child_entity.id()).unwrap()` of line 292 is the `Option`
failure point. -/
def insertStep (alive : Entity → Bool) (parents : Entity → Option Entity)
    (s : Hierarchy) (entity : Entity) : Option Hierarchy :=
  if alive entity then
    match parents entity with
    | none => some s
    | some parent_entity =>
      let insertIndex? : Option Nat :=
        match alGet s.children entity with
        | none => some s.sorted.length
        | some cs =>
          match cs.mapM (fun c => alGet s.entities c) with
          | none => none
          | some idxs =>
            match listMin? idxs with
            | some m => some m
            | none => some s.sorted.length
      match insertIndex? with
      | none => none
      | some insert_index =>
        let entities0 := alInsert s.entities entity insert_index
        let step : List Entity × Option (List (Nat × Nat)) :=
          if insert_index ≥ s.sorted.length then
            (s.sorted ++ [entity], some entities0)
          else
            let sorted := s.sorted.insertIdx insert_index entity
            (sorted, reindexRange entities0 sorted insert_index sorted.length)
        match step.2 with
        | none => none
        | some entities =>
          let children := childrenPush s.children parent_entity entity
          let current_parent := alInsert s.current_parent entity parent_entity
          let scratch_set := setInsert s.scratch_set entity
          let external_parents :=
            if (alGet current_parent parent_entity).isSome then s.external_parents
            else setInsert s.external_parents parent_entity
          some { sorted := step.1, entities := entities, children := children
                 current_parent := current_parent
                 external_parents := setRemove external_parents entity
                 changed := s.changed, scratch_set := scratch_set }
  else some s

/-- The ancestor-pull loop of the reparent phase (lines 348-360).  Iteration
count: completing an iteration needs `process_index < sorted.length` (or
`Vec::remove` panics, modelled as `none`), and from the second iteration on
`process_index = p + offset ≥ offset`, with `offset` equal to the number of
completed iterations; so at most `sorted.length + 1` iterations complete and
the out-of-fuel branch is unreachable at the call site's
`sorted.length + 2`. -/
def moveLoop (cp : List (Nat × Entity)) (ents : List (Nat × Nat))
    (entity_index : Nat) :
    Nat → List Entity → Nat → Nat → Option (List Entity)
  | 0, _, _, _ => none
  | fuel + 1, sorted, process_index, offset =>
    if process_index > entity_index then
      match sorted[process_index]? with
      | none => none
      | some move_entity =>
        let sorted' := (sorted.eraseIdx process_index).insertIdx entity_index move_entity
        let offset' := offset + 1
        let process_index' :=
          match alGet cp move_entity with
          | some p =>
            match alGet ents p with
            | some pi => pi + offset'
            | none => 0
          | none => 0
        moveLoop cp ents entity_index fuel sorted' process_index' offset'
    else
      some sorted

/-- `children.remove(pos)` for the old parent's children list (lines
331-337): an order-preserving removal of the first occurrence. -/
def detachChild (children : List (Nat × List Entity)) (old_parent : Entity)
    (entity : Entity) : List (Nat × List Entity) :=
  match alGet children old_parent with
  | none => children
  | some cs =>
    match cs.findIdx? (fun e => e = entity) with
    | some pos => alInsert children old_parent (cs.eraseIdx pos)
    | none => children

/-- One iteration of the reparent loop (lines 323-376), for one entity of the
modified set that is alive and carries a parent component.  The
`self.entities.get(&entity.id()).cloned().unwrap()` of line 346 is the
`Option` failure point. -/
def modifiedStep (alive : Entity → Bool) (parents : Entity → Option Entity)
    (s : Hierarchy) (entity : Entity) : Option Hierarchy :=
  if alive entity then
    match parents entity with
    | none => some s
    | some parent_entity =>
      let oldp := alGet s.current_parent entity
      if oldp = some parent_entity then some s
      else
        let children1 :=
          match oldp with
          | some old_parent => detachChild s.children old_parent entity
          | none => s.children
        let children := childrenPush children1 parent_entity entity
        match alGet s.entities entity with
        | none => none
        | some entity_index =>
          let moved : Option (List Entity × List (Nat × Nat)) :=
            match alGet s.entities parent_entity with
            | none => some (s.sorted, s.entities)
            | some parent_index =>
              match moveLoop s.current_parent s.entities entity_index
                  (s.sorted.length + 2) s.sorted parent_index 0 with
              | none => none
              | some sorted =>
                if parent_index > entity_index then
                  match reindexRange s.entities sorted entity_index parent_index with
                  | none => none
                  | some ents => some (sorted, ents)
                else some (sorted, s.entities)
          match moved with
          | none => none
          | some (sorted, entities) =>
            let current_parent := alInsert s.current_parent entity parent_entity
            let scratch_set := setInsert s.scratch_set entity
            let external_parents :=
              if (alGet current_parent parent_entity).isSome then s.external_parents
              else setInsert s.external_parents parent_entity
            some { sorted := sorted, entities := entities, children := children
                   current_parent := current_parent
                   external_parents := external_parents
                   changed := s.changed, scratch_set := scratch_set }
  else some s

/-- Phase 4 (lines 378-392): one left-to-right pass over `sorted` emitting a
`Modified` event for every entity that is dirty or whose current parent is
dirty, growing the dirty set as it goes. -/
def notifyPass (cp : List (Nat × Entity)) :
    List Entity → List Nat → List HierarchyEvent → (List Nat × List HierarchyEvent)
  | [], scratch, changed => (scratch, changed)
  | e :: rest, scratch, changed =>
    let notify := scratch.contains e ||
      (match alGet cp e with
       | some p => scratch.contains p
       | none => false)
    if notify then
      notifyPass cp rest (setInsert scratch e) (changed ++ [HierarchyEvent.Modified e])
    else
      notifyPass cp rest scratch changed

/-- Phase 5 (lines 394-402): prune external parents that have no children-map
entry. -/
def pruneExternal (s : Hierarchy) : Hierarchy :=
  let scratch := s.external_parents.foldl
    (fun sc e => if (alGet s.children e).isSome then sc else setInsert sc e) []
  { s with external_parents := scratch.foldl setRemove s.external_parents
           scratch_set := scratch }

/-- `Hierarchy::maintain` (lines 192-403).  `alive` is `Entities::is_alive`,
`parents` the parent-component lookup (returning `parent.parent_entity()`),
and the three lists are the inserted/modified/removed id sets of the tick in
ascending id order (`BitSet` iteration order).  `none` models a panic. -/
def maintain (s : Hierarchy) (alive : Entity → Bool) (parents : Entity → Option Entity)
    (insertedL modifiedL removedL : List Nat) : Option Hierarchy := do
  let s1 ← removalPhase s alive removedL
  let s2 ← insertedL.foldlM (insertStep alive parents) { s1 with scratch_set := [] }
  let s3 ← modifiedL.foldlM (modifiedStep alive parents) s2
  let s4 :=
    if s3.scratch_set.isEmpty then s3
    else
      let res := notifyPass s3.current_parent s3.sorted s3.scratch_set s3.changed
      { s3 with scratch_set := res.1, changed := res.2 }
  pure (pruneExternal s4)

/-! ## The subtree iterator and `all_children` -/

/-- `SubHierarchyIterator` (source lines 406-414): the hierarchy is passed
separately (it is an immutable borrow in the source). -/
structure SubHierarchyIterator where
  current_index : Nat
  end_index : Nat
  entities : List Nat
deriving Repr, DecidableEq

/-- `SubHierarchyIterator::process_entity` (lines 446-457): add the children
of `child` to the discovered set and push `end_index` out to their largest
position. -/
def processEntity (h : Hierarchy) (it : SubHierarchyIterator) (child : Entity) :
    SubHierarchyIterator :=
  match alGet h.children child with
  | none => it
  | some cs =>
    cs.foldl
      (fun it c =>
        { it with
          entities := setInsert it.entities c
          end_index :=
            match alGet h.entities c with
            | some index => if index > it.end_index then index else it.end_index
            | none => it.end_index })
      it

/-- `SubHierarchyIterator::new` (lines 420-444).  The source indexes
`hierarchy.sorted[root_index]`, in range whenever the position index is in
sync (`root_index` is then the position of one of `root`'s children), so it
is modelled with a default. -/
def SubHierarchyIterator.mk0 (h : Hierarchy) (root : Entity) : SubHierarchyIterator :=
  let max := h.sorted.length
  let root_index :=
    match alGet h.children root with
    | some cs =>
      match listMin? (cs.map (fun c => (alGet h.entities c).getD max)) with
      | some m => m
      | none => max
    | none => max
  let it : SubHierarchyIterator :=
    { current_index := root_index, end_index := 0, entities := [] }
  let it := processEntity h it root
  if root_index ≠ max then processEntity h it (h.sorted.getD root_index 0) else it

/-- The `while !found_next` loop of `Iterator::next` (lines 472-487). -/
def nextLoop (h : Hierarchy) (it : SubHierarchyIterator) : SubHierarchyIterator :=
  let ci := it.current_index + 1
  if ci > it.end_index ∨ ci ≥ h.sorted.length then
    { it with current_index := ci }
  else if it.entities.contains (h.sorted.getD ci 0) then
    processEntity h { it with current_index := ci } (h.sorted.getD ci 0)
  else
    nextLoop h { it with current_index := ci }
termination_by it.end_index + 1 - it.current_index
decreasing_by
  simp only [not_or, Nat.not_lt] at *
  omega

/-- `Iterator::next` for `SubHierarchyIterator` (lines 466-490). -/
def SubHierarchyIterator.next (h : Hierarchy) (it : SubHierarchyIterator) :
    Option (Entity × SubHierarchyIterator) :=
  if it.current_index ≥ h.sorted.length ∨ it.current_index > it.end_index then none
  else some (h.sorted.getD it.current_index 0, nextLoop h it)

/-- Drain the iterator into a list.  Each yield strictly increases
`current_index`, and a yield needs `current_index < sorted.length`, so
`sorted.length + 1` rounds always reach `none`. -/
def drain (h : Hierarchy) : Nat → SubHierarchyIterator → List Entity
  | 0, _ => []
  | fuel + 1, it =>
    match SubHierarchyIterator.next h it with
    | none => []
    | some (e, it') => e :: drain h fuel it'

/-- `Hierarchy::all_children_iter` drained to a list. -/
def allChildrenIter (h : Hierarchy) (root : Entity) : List Entity :=
  drain h (h.sorted.length + 1) (SubHierarchyIterator.mk0 h root)

/-- `Hierarchy::add_children_to_set` (lines 159-166).  The recursion of the
source has no structural bound (a cyclic children map diverges); `fuel`
bounds the recursion depth, and under the data-model invariants depth
`sorted.length + 1` is never exhausted, since positions strictly increase
along any child chain. -/
def addChildrenToSet (h : Hierarchy) : Nat → Entity → List Nat → List Nat
  | 0, _, set => set
  | fuel + 1, entity, set =>
    match alGet h.children entity with
    | none => set
    | some cs =>
      cs.foldl (fun set c => addChildrenToSet h fuel c (setInsert set c)) set

/-- `Hierarchy::all_children` (lines 153-157), as the list of ids of the
result `BitSet`. -/
def allChildren (h : Hierarchy) (e : Entity) : List Nat :=
  addChildrenToSet h (h.sorted.length + 1) e []

/-- The initial state of the removal scan, as built by `maintain` for a tick
whose removed set produced seed scratch `sc0`. -/
def initRState (s : Hierarchy) (alive : Entity → Bool) (sc0 : List Nat) : RState :=
  { scratch := livenessScratch alive s.external_parents sc0
    children := s.children, current_parent := s.current_parent
    entities := s.entities, kcount := 0, min_index := usizeMax }

/-- Descendant-or-self relation through the current-parent map: `D` is in the
subtree of `A` when a chain of parent links leads from `D` up to `A`. -/
inductive ParentChain (cp : List (Nat × Entity)) (A : Nat) : Nat → Prop
  | refl : ParentChain cp A A
  | step (mid e : Nat) : ParentChain cp A mid → alGet cp e = some mid →
      ParentChain cp A e

/-- Structural form of the parents-before-children invariant: each element's
current parent does not occur at its own position or later. -/
def parentsBeforeB (cp : List (Nat × Entity)) : List Nat → Bool
  | [] => true
  | h :: t =>
    (match alGet cp h with
     | some p => !(h :: t).contains p
     | none => true) && parentsBeforeB cp t

/-- The closure the removal scan computes: an entity is removed when it is in
the seed scratch set, its parent is in the seed set, or its parent occurs in
the scanned list and is itself removed. -/
inductive RemovedBy (cp : List (Nat × Entity)) (l : List Nat) (sc : List Nat) :
    Nat → Prop
  | seed (x : Nat) : x ∈ sc → RemovedBy cp l sc x
  | parentSeed (x p : Nat) : alGet cp x = some p → p ∈ sc → RemovedBy cp l sc x
  | parentChain (x p : Nat) : alGet cp x = some p → p ∈ l → RemovedBy cp l sc p →
      RemovedBy cp l sc x

/-- `ChildChain ch root x n`: `x` is reachable from `root` in exactly `n`
child steps (`n ≥ 1`) through the children map. -/
inductive ChildChain (ch : List (Nat × List Entity)) (root : Nat) : Nat → Nat → Prop
  | one (c : Nat) (cs : List Entity) :
      alGet ch root = some cs → c ∈ cs → ChildChain ch root c 1
  | more (m c : Nat) (n : Nat) (cs : List Entity) :
      ChildChain ch root m n → alGet ch m = some cs → c ∈ cs →
      ChildChain ch root c (n + 1)

/-- Ancestor-or-self through the children map. -/
def Anc (ch : List (Nat × List Entity)) (a d : Nat) : Prop :=
  a = d ∨ ∃ n, ChildChain ch a d n

/-- Invariant of the subtree scan, relating the discovered set, the end
bound, the current position and the set of descendants of `root`. -/
structure ScanInv (s : Hierarchy) (root : Nat) (it : SubHierarchyIterator) : Prop where
  entSub : ∀ x ∈ it.entities, ∃ n, ChildChain s.children root x n
  entEnd : ∀ x ∈ it.entities, ∀ i, alGet s.entities x = some i → i ≤ it.end_index
  curMem : it.current_index ≤ it.end_index → it.current_index < s.sorted.length →
    s.sorted.getD it.current_index 0 ∈ it.entities
  curProc : it.current_index ≤ it.end_index → it.current_index < s.sorted.length →
    ∀ cs c, alGet s.children (s.sorted.getD it.current_index 0) = some cs →
      c ∈ cs → c ∈ it.entities
  witness : ∀ d n, ChildChain s.children root d n → ∀ id,
    alGet s.entities d = some id → it.current_index ≤ id →
    ∃ a ia, a ∈ it.entities ∧ alGet s.entities a = some ia ∧
      it.current_index ≤ ia ∧ ia ≤ id ∧ Anc s.children a d

/-! ## Decidable invariant checkers -/

/-- Position of `x` in `l` (first occurrence). -/
def posIn (l : List Nat) (x : Nat) : Option Nat := l.findIdx? (fun y => y = x)

/-- Decidable check of the spec's topological invariant: every entity of
`all()` whose current parent is also in `all()` comes strictly after that
parent. -/
def topoOkB (s : Hierarchy) : Bool :=
  s.sorted.all (fun e =>
    match alGet s.current_parent e with
    | some p =>
      if s.sorted.contains p then
        match posIn s.sorted p, posIn s.sorted e with
        | some j, some i => decide (j < i)
        | _, _ => false
      else true
    | none => true)

/-- Decidable check of the spec's position-index invariant:
`position_index[sequence[i]] == i` for every `i`, and every position-index
entry points back at its own entity in the sequence. -/
def posIndexSyncB (s : Hierarchy) : Bool :=
  (List.range s.sorted.length).all
    (fun i => alGet s.entities (s.sorted.getD i 0) == some i)
  && s.entities.all
    (fun kv => decide (kv.2 < s.sorted.length) && (s.sorted.getD kv.2 0 == kv.1))

/-- Decidable data-model invariant on the children map: every recorded
child is in the position index, strictly after its parent whenever the
parent is indexed too. -/
def childrenSyncB (s : Hierarchy) : Bool :=
  s.children.all (fun kv => kv.2.all (fun c =>
    match alGet s.entities c with
    | none => false
    | some ic =>
      match alGet s.entities kv.1 with
      | none => true
      | some ip => decide (ip < ic)))

/-- Decidable data-model invariant relating the children map to the
current-parent map: every recorded child list is duplicate-free and each of
its members records that parent as its current parent. -/
def childrenConsB (s : Hierarchy) : Bool :=
  s.children.all (fun kv => decide kv.2.Nodup &&
    kv.2.all (fun c => alGet s.current_parent c == some kv.1))

/-- A small synced hierarchy (1 ← 2 ← 3 as parent-to-child links) used to
exercise the subtree-iterator equivalence at a concrete input. -/
def c8state : Hierarchy :=
  { sorted := [1, 2, 3], entities := [(1, 0), (2, 1), (3, 2)]
    children := [(1, [2]), (2, [3])], current_parent := [(2, 1), (3, 2)]
    external_parents := [], changed := [], scratch_set := [] }

/-! ## Concrete runs exhibiting the code bugs -/

/-- Parent links for the C1 run: 1 is a child of 3, 2 a child of 4, 3 a
child of 2 (acyclic: 1 ← 3 ← 2 ← 4). -/
def c1parents : Entity → Option Entity := fun e =>
  if e = 1 then some 3 else if e = 2 then some 4 else if e = 3 then some 2 else none

/-- Parent links of the first C2 tick: 1 a child of 10, 2 a child of 11. -/
def c2parentsA : Entity → Option Entity := fun e =>
  if e = 1 then some 10 else if e = 2 then some 11 else none

/-- Parent links of the second C2 tick: 1 reparented under 2. -/
def c2parentsB : Entity → Option Entity := fun e =>
  if e = 1 then some 2 else if e = 2 then some 11 else none

/-- C2 run, first tick: insert 1 and 2 from the empty hierarchy. -/
def c2tick1 : Option Hierarchy :=
  maintain Hierarchy.empty (fun _ => true) c2parentsA [1, 2] [] []

/-- C2 run, second tick: 1's link is modified to point at 2. -/
def c2tick2 : Option Hierarchy :=
  c2tick1.bind (fun s1 => maintain s1 (fun _ => true) c2parentsB [] [1] [])

/-- Parent links of the first C3 tick: 1 a child of 10, 2 a child of 1. -/
def c3parentsA : Entity → Option Entity := fun e =>
  if e = 1 then some 10 else if e = 2 then some 1 else none

/-- Parent storage of the second C3 tick: 1's component was removed, 2 still
carries its component pointing at 1. -/
def c3parentsB : Entity → Option Entity := fun e =>
  if e = 2 then some 1 else none

/-- Parent storage of the third C3 tick: 2's component was modified to point
at 20. -/
def c3parentsC : Entity → Option Entity := fun e =>
  if e = 2 then some 20 else none

/-- C3 run, first tick. -/
def c3tick1 : Option Hierarchy :=
  maintain Hierarchy.empty (fun _ => true) c3parentsA [1, 2] [] []

/-- C3 run, second tick: 1's parent component is removed; the cascade also
drops 2 from the hierarchy, while 2 keeps its component (as the crate's own
documentation says may happen). -/
def c3tick2 : Option Hierarchy :=
  c3tick1.bind (fun s1 => maintain s1 (fun _ => true) c3parentsB [] [] [1])

/-- Parent links of the first C6 tick: 2 a child of 20. -/
def c6parentsA : Entity → Option Entity := fun e => if e = 2 then some 20 else none

/-- Parent links of the second C6 tick: 1 a child of 21, 3 a child of 22. -/
def c6parentsB : Entity → Option Entity := fun e =>
  if e = 2 then some 20 else if e = 1 then some 21 else if e = 3 then some 22 else none

/-- Parent links of the third C6 tick: 1 reparented under 3, 2 reparented
under 1 (acyclic: 2 ← 1 ← 3 ← 22). -/
def c6parentsC : Entity → Option Entity := fun e =>
  if e = 1 then some 3 else if e = 2 then some 1 else if e = 3 then some 22 else none

/-- C6 run, ticks one and two: build the sorted sequence [2, 1, 3]. -/
def c6pre : Option Hierarchy :=
  (maintain Hierarchy.empty (fun _ => true) c6parentsA [2] [] []).bind
    (fun s1 => maintain s1 (fun _ => true) c6parentsB [1, 3] [] [])

/-- C6 run, third tick: the two modified links of the batch. -/
def c6tick3 : Option Hierarchy :=
  c6pre.bind (fun s2 => maintain s2 (fun _ => true) c6parentsC [] [1, 2] [])

/-- The C5 counterexample state: an external parent with no children-map
entry (and nothing else). -/
def c5state : Hierarchy :=
  { sorted := [], entities := [], children := [], current_parent := []
    external_parents := [5], changed := [], scratch_set := [] }

/-- Parent links of the C9 run: 1, 2, 3 all children of 5. -/
def c9parentsA : Entity → Option Entity := fun e =>
  if e = 1 then some 5 else if e = 2 then some 5 else if e = 3 then some 5 else none

/-- Parent storage of the second C9 tick: 1's component was removed. -/
def c9parentsB : Entity → Option Entity := fun e =>
  if e = 2 then some 5 else if e = 3 then some 5 else none

/-- C9 run, first tick: children of 5 are recorded in event order
[1, 2, 3]. -/
def c9tick1 : Option Hierarchy :=
  maintain Hierarchy.empty (fun _ => true) c9parentsA [1, 2, 3] [] []

/-- C9 run, second tick: the first child's link is removed. -/
def c9tick2 : Option Hierarchy :=
  c9tick1.bind (fun s1 => maintain s1 (fun _ => true) c9parentsB [] [] [1])

/-- Base state for the amended-C9 witness: entity 5 (an external parent)
has recorded children [1, 2, 3] in event order, and a second subtree 8 → 7
exists beside it. -/
def c9base : Hierarchy :=
  { sorted := [1, 2, 3, 7], entities := [(1, 0), (2, 1), (3, 2), (7, 3)]
    children := [(5, [1, 2, 3]), (8, [7])]
    current_parent := [(1, 5), (2, 5), (3, 5), (7, 8)]
    external_parents := [5, 8], changed := [], scratch_set := [] }

/-- Parent storage for the amended-C9 witness ticks: 9 is a new child of 5
and 2 is reparented under 6. -/
def c9parentsW : Entity → Option Entity := fun x =>
  if x = 9 then some 5 else if x = 2 then some 6 else none

/-- Result of the insert tick `[9]` from `c9base`. -/
def c9w1 : Hierarchy :=
  { sorted := [1, 2, 3, 7, 9], entities := [(1, 0), (2, 1), (3, 2), (7, 3), (9, 4)]
    children := [(5, [1, 2, 3, 9]), (8, [7])]
    current_parent := [(1, 5), (2, 5), (3, 5), (7, 8), (9, 5)]
    external_parents := [5, 8], changed := [HierarchyEvent.Modified 9]
    scratch_set := [] }

/-- Result of the reparent tick `[2]` from `c9base`. -/
def c9w2 : Hierarchy :=
  { sorted := [1, 2, 3, 7], entities := [(1, 0), (2, 1), (3, 2), (7, 3)]
    children := [(5, [1, 3]), (8, [7]), (6, [2])]
    current_parent := [(1, 5), (2, 6), (3, 5), (7, 8)]
    external_parents := [5, 8, 6], changed := [HierarchyEvent.Modified 2]
    scratch_set := [] }

/-- Result of the removal tick `[7]` from `c9base`. -/
def c9w3 : Hierarchy :=
  { sorted := [1, 2, 3], entities := [(1, 0), (2, 1), (3, 2)]
    children := [(5, [1, 2, 3]), (8, [])]
    current_parent := [(1, 5), (2, 5), (3, 5)]
    external_parents := [5, 8], changed := [HierarchyEvent.Removed 7]
    scratch_set := [] }

/-! ## Helper lemmas about the map and set models -/

theorem contains_true_iff (l : List Nat) (x : Nat) : l.contains x = true ↔ x ∈ l :=
  List.elem_iff

theorem setInsert_eq (s : List Nat) (x : Nat) :
    setInsert s x = if x ∈ s then s else s ++ [x] := by
  unfold setInsert
  by_cases h : x ∈ s
  · rw [if_pos ((contains_true_iff s x).mpr h), if_pos h]
  · rw [if_neg (fun hc => h ((contains_true_iff s x).mp hc)), if_neg h]

theorem alGet_cons_self {α : Type} (rest : List (Nat × α)) (k : Nat) (v : α) :
    alGet ((k, v) :: rest) k = some v := by simp [alGet]

theorem alInsert_cons_self {α : Type} (rest : List (Nat × α)) (k : Nat) (v1 v : α) :
    alInsert ((k, v1) :: rest) k v = (k, v) :: rest := by simp [alInsert]

theorem alInsert_cons_ne {α : Type} (rest : List (Nat × α)) (k k1 : Nat) (v1 v : α)
    (h : k ≠ k1) : alInsert ((k1, v1) :: rest) k v = (k1, v1) :: alInsert rest k v := by
  simp [alInsert, h]

theorem alRemove_cons_self {α : Type} (rest : List (Nat × α)) (k : Nat) (v : α) :
    alRemove ((k, v) :: rest) k = rest := by simp [alRemove]

theorem alRemove_cons_ne {α : Type} (rest : List (Nat × α)) (k k1 : Nat) (v1 : α)
    (h : k ≠ k1) : alRemove ((k1, v1) :: rest) k = (k1, v1) :: alRemove rest k := by
  simp [alRemove, h]

theorem alGet_alInsert_self {α : Type} (m : List (Nat × α)) (k : Nat) (v : α) :
    alGet (alInsert m k v) k = some v := by
  induction m with
  | nil => simp [alInsert, alGet]
  | cons kv rest ih =>
    obtain ⟨k1, v1⟩ := kv
    by_cases h : k = k1 <;> simp [alInsert, alGet, h, ih]

theorem alGet_alInsert_ne {α : Type} (m : List (Nat × α)) (k : Nat) (v : α)
    (k' : Nat) (h : k' ≠ k) : alGet (alInsert m k v) k' = alGet m k' := by
  induction m with
  | nil => simp [alInsert, alGet, h]
  | cons kv rest ih =>
    obtain ⟨k1, v1⟩ := kv
    by_cases hk : k = k1
    · subst hk; simp [alInsert, alGet, h]
    · by_cases hk' : k' = k1 <;> simp [alInsert, alGet, hk, hk', ih]

theorem alGet_alRemove_ne {α : Type} (m : List (Nat × α)) (k k' : Nat) (h : k' ≠ k) :
    alGet (alRemove m k) k' = alGet m k' := by
  induction m with
  | nil => simp [alRemove]
  | cons kv rest ih =>
    obtain ⟨k1, v1⟩ := kv
    by_cases hk : k = k1
    · subst hk; simp [alRemove, alGet, h]
    · by_cases hk' : k' = k1 <;> simp [alRemove, alGet, hk, hk', ih]

theorem alGet_eq_none_of_not_mem_keys {α : Type} (m : List (Nat × α)) (k : Nat)
    (h : k ∉ m.map Prod.fst) : alGet m k = none := by
  induction m with
  | nil => rfl
  | cons kv rest ih =>
    obtain ⟨k1, v1⟩ := kv
    simp only [List.map_cons, List.mem_cons, not_or] at h
    simp only [alGet, if_neg h.1, ih h.2]

theorem alGet_alRemove_self {α : Type} (m : List (Nat × α)) (k : Nat)
    (h : (m.map Prod.fst).Nodup) : alGet (alRemove m k) k = none := by
  induction m with
  | nil => simp [alRemove, alGet]
  | cons kv rest ih =>
    obtain ⟨k1, v1⟩ := kv
    simp only [List.map_cons, List.nodup_cons] at h
    by_cases hk : k = k1
    · subst hk
      simp only [alRemove, if_pos rfl]
      exact alGet_eq_none_of_not_mem_keys rest k h.1
    · simp [alRemove, alGet, hk, ih h.2]

theorem alGet_none_alRemove {α : Type} (m : List (Nat × α)) (k x : Nat)
    (h : alGet m x = none) : alGet (alRemove m k) x = none := by
  induction m with
  | nil => simpa [alRemove] using h
  | cons kv rest ih =>
    obtain ⟨k1, v1⟩ := kv
    by_cases hx : x = k1
    · simp [alGet, hx] at h
    · simp only [alGet, if_neg hx] at h
      by_cases hk : k = k1 <;> simp [alRemove, alGet, hk, hx, ih h, h]

theorem mem_of_alGet {α : Type} (m : List (Nat × α)) (k : Nat) (v : α)
    (h : alGet m k = some v) : (k, v) ∈ m := by
  induction m with
  | nil => simp [alGet] at h
  | cons kv rest ih =>
    obtain ⟨k1, v1⟩ := kv
    by_cases hk : k = k1
    · subst hk
      simp only [alGet, if_pos rfl] at h
      obtain rfl := Option.some.inj h
      exact List.mem_cons_self _ _
    · simp only [alGet, if_neg hk] at h
      exact List.mem_cons_of_mem _ (ih h)

theorem keys_alInsert_subset {α : Type} (m : List (Nat × α)) (k : Nat) (v : α)
    (x : Nat) (hx : x ∈ (alInsert m k v).map Prod.fst) :
    x ∈ m.map Prod.fst ∨ x = k := by
  induction m with
  | nil =>
    simp only [alInsert, List.map_cons, List.map_nil, List.mem_singleton] at hx
    exact Or.inr hx
  | cons kv rest ih =>
    obtain ⟨k1, v1⟩ := kv
    by_cases hk : k = k1
    · subst hk
      rw [alInsert_cons_self] at hx
      simp only [List.map_cons, List.mem_cons] at hx ⊢
      exact Or.inl hx
    · rw [alInsert_cons_ne rest k k1 v1 v hk] at hx
      simp only [List.map_cons, List.mem_cons] at hx ⊢
      rcases hx with rfl | hx
      · exact Or.inl (Or.inl rfl)
      · rcases ih hx with h | h
        · exact Or.inl (Or.inr h)
        · exact Or.inr h

theorem keys_alRemove_subset {α : Type} (m : List (Nat × α)) (k : Nat)
    (x : Nat) (hx : x ∈ (alRemove m k).map Prod.fst) : x ∈ m.map Prod.fst := by
  induction m with
  | nil => simp [alRemove] at hx
  | cons kv rest ih =>
    obtain ⟨k1, v1⟩ := kv
    by_cases hk : k = k1
    · subst hk
      simp only [alRemove, if_pos rfl] at hx
      exact List.mem_cons_of_mem _ hx
    · simp only [alRemove, if_neg hk, List.map_cons, List.mem_cons] at hx ⊢
      rcases hx with rfl | hx
      · exact Or.inl rfl
      · exact Or.inr (ih hx)

theorem keysNodup_alInsert {α : Type} (m : List (Nat × α)) (k : Nat) (v : α)
    (h : (m.map Prod.fst).Nodup) : ((alInsert m k v).map Prod.fst).Nodup := by
  induction m with
  | nil => simp [alInsert]
  | cons kv rest ih =>
    obtain ⟨k1, v1⟩ := kv
    simp only [List.map_cons, List.nodup_cons] at h
    by_cases hk : k = k1
    · subst hk
      rw [alInsert_cons_self]
      simp only [List.map_cons, List.nodup_cons]
      exact h
    · rw [alInsert_cons_ne rest k k1 v1 v hk]
      simp only [List.map_cons, List.nodup_cons]
      refine ⟨fun hc => ?_, ih h.2⟩
      rcases keys_alInsert_subset rest k v k1 hc with hm | he
      · exact h.1 hm
      · exact hk he.symm

theorem keysNodup_alRemove {α : Type} (m : List (Nat × α)) (k : Nat)
    (h : (m.map Prod.fst).Nodup) : ((alRemove m k).map Prod.fst).Nodup := by
  induction m with
  | nil => simp [alRemove]
  | cons kv rest ih =>
    obtain ⟨k1, v1⟩ := kv
    simp only [List.map_cons, List.nodup_cons] at h
    by_cases hk : k = k1
    · subst hk
      simpa [alRemove] using h.2
    · simp only [alRemove, if_neg hk, List.map_cons, List.nodup_cons]
      exact ⟨fun hc => h.1 (keys_alRemove_subset rest k k1 hc), ih h.2⟩

theorem mem_setInsert_iff (s : List Nat) (x y : Nat) :
    y ∈ setInsert s x ↔ y ∈ s ∨ y = x := by
  rw [setInsert_eq]
  by_cases h : x ∈ s
  · simp only [if_pos h]
    exact ⟨Or.inl, fun hy => hy.elim id (fun he => by simpa [he] using h)⟩
  · simp [if_neg h]

theorem mem_setInsert_self (s : List Nat) (x : Nat) : x ∈ setInsert s x :=
  (mem_setInsert_iff s x x).mpr (Or.inr rfl)

theorem mem_setInsert_of_mem (s : List Nat) (x y : Nat) (h : y ∈ s) :
    y ∈ setInsert s x :=
  (mem_setInsert_iff s x y).mpr (Or.inl h)

theorem setInsert_nodup (s : List Nat) (x : Nat) (h : s.Nodup) :
    (setInsert s x).Nodup := by
  rw [setInsert_eq]
  by_cases hm : x ∈ s
  · simpa [hm] using h
  · simp only [if_neg hm]
    exact List.Nodup.append h (List.nodup_singleton x)
      (fun a ha hb => hm (by rwa [List.mem_singleton.mp hb] at ha))

theorem mem_setRemove_iff (s : List Nat) (x y : Nat) :
    y ∈ setRemove s x ↔ y ∈ s ∧ y ≠ x := by
  simp [setRemove]

theorem not_mem_foldl_setRemove_of_not_mem (l : List Nat) (e : List Nat) (x : Nat)
    (he : x ∉ e) : x ∉ l.foldl setRemove e := by
  induction l generalizing e with
  | nil => simpa using he
  | cons z zs ih =>
    exact ih _ (fun hm => he ((mem_setRemove_iff e z x).mp hm).1)

theorem not_mem_foldl_setRemove (l : List Nat) (ext : List Nat) (x : Nat)
    (h : x ∈ l) : x ∉ l.foldl setRemove ext := by
  induction l generalizing ext with
  | nil => simp at h
  | cons y ys ih =>
    rcases List.mem_cons.mp h with rfl | hmem
    · exact not_mem_foldl_setRemove_of_not_mem ys (setRemove ext x) x
        (fun hm => ((mem_setRemove_iff ext x x).mp hm).2 rfl)
    · exact ih _ hmem

theorem mem_foldl_setRemove_of_mem (l : List Nat) (ext : List Nat) (x : Nat)
    (hx : x ∈ l.foldl setRemove ext) : x ∈ ext := by
  induction l generalizing ext with
  | nil => simpa using hx
  | cons y ys ih =>
    exact ((mem_setRemove_iff ext y x).mp (ih _ hx)).1

/-! ## General lemmas about the phases -/

theorem livenessScratch_id (alive : Entity → Bool) (ext : List Nat) (sc : List Nat)
    (h : ∀ e ∈ ext, alive e = true) : livenessScratch alive ext sc = sc := by
  induction ext generalizing sc with
  | nil => rfl
  | cons x xs ih =>
    unfold livenessScratch
    simp only [List.foldl_cons, h x (List.mem_cons_self x xs), if_true]
    exact ih sc (fun e he => h e (List.mem_cons_of_mem _ he))

theorem pruneFold_nil (ch : List (Nat × List Entity)) (ext : List Nat) (sc : List Nat)
    (h : ∀ e ∈ ext, (alGet ch e).isSome = true) :
    ext.foldl (fun sc e => if (alGet ch e).isSome then sc else setInsert sc e) sc
      = sc := by
  induction ext generalizing sc with
  | nil => rfl
  | cons x xs ih =>
    simp only [List.foldl_cons, h x (List.mem_cons_self x xs), if_true]
    exact ih sc (fun e he => h e (List.mem_cons_of_mem _ he))

theorem pruneExternal_id (s : Hierarchy)
    (h : ∀ e ∈ s.external_parents, (alGet s.children e).isSome = true) :
    pruneExternal s = { s with scratch_set := [] } := by
  unfold pruneExternal
  rw [pruneFold_nil s.children s.external_parents [] h]
  rfl

theorem removalPhase_empty (s : Hierarchy) (alive : Entity → Bool)
    (h1 : ∀ p ∈ s.external_parents, alive p = true) :
    removalPhase s alive [] = some { s with scratch_set := [] } := by
  unfold removalPhase removedScratch
  simp only [List.foldlM_nil, Option.pure_def, Option.bind_eq_bind, Option.some_bind]
  rw [livenessScratch_id alive s.external_parents [] h1]
  rfl

theorem mem_livenessScratch_of_mem (alive : Entity → Bool) (ext : List Nat)
    (sc : List Nat) (x : Nat) (h : x ∈ sc) : x ∈ livenessScratch alive ext sc := by
  induction ext generalizing sc with
  | nil => exact h
  | cons y ys ih =>
    unfold livenessScratch
    simp only [List.foldl_cons]
    by_cases hy : alive y
    · simp only [hy, if_true]
      exact ih sc h
    · simp only [hy, if_false]
      exact ih _ (mem_setInsert_of_mem _ _ _ h)

theorem mem_livenessScratch (alive : Entity → Bool) (ext : List Nat) (sc : List Nat)
    (P : Nat) (hP : P ∈ ext) (hd : alive P = false) :
    P ∈ livenessScratch alive ext sc := by
  induction ext generalizing sc with
  | nil => simp at hP
  | cons y ys ih =>
    unfold livenessScratch
    simp only [List.foldl_cons]
    rcases List.mem_cons.mp hP with rfl | hmem
    · simp only [hd, if_false]
      exact mem_livenessScratch_of_mem alive ys _ P (mem_setInsert_self sc P)
    · by_cases hy : alive y
      · simp only [hy, if_true]; exact ih sc hmem
      · simp only [hy, if_false]; exact ih _ hmem

theorem removalPass_scratch_mono (l : List Entity) (st : RState) (x : Nat)
    (h : x ∈ st.scratch) : x ∈ (removalPass st l).2.scratch := by
  induction l generalizing st with
  | nil => exact h
  | cons e rest ih =>
    unfold removalPass
    by_cases hrm : (st.scratch.contains e ||
      (match alGet st.current_parent e with
       | some p => st.scratch.contains p
       | none => false)) = true
    · simp only [hrm, if_true]
      exact ih _ (mem_setInsert_of_mem _ _ _ h)
    · simp only [hrm, if_false]
      exact ih _ h

theorem reindexFold_some (sorted : List Entity) (idxs : List Nat)
    (h : ∀ i ∈ idxs, i < sorted.length) (m : List (Nat × Nat)) :
    ∃ r, idxs.foldlM
        (fun m i =>
          match sorted[i]? with
          | some e => some (alInsert m e i)
          | none => none) m = some r := by
  induction idxs generalizing m with
  | nil => exact ⟨m, rfl⟩
  | cons i is ih =>
    have hi : i < sorted.length := h i (List.mem_cons_self i is)
    have he : sorted[i]? = some sorted[i] := List.getElem?_eq_getElem hi
    simp only [List.foldlM_cons, he]
    exact ih (fun j hj => h j (List.mem_cons_of_mem _ hj)) _

theorem reindexRange_stop_some (m : List (Nat × Nat)) (sorted : List Entity)
    (start : Nat) : ∃ r, reindexRange m sorted start sorted.length = some r := by
  unfold reindexRange
  apply reindexFold_some
  intro i hi
  obtain ⟨j, hj, rfl⟩ := List.mem_range'.mp hi
  omega

theorem removalPhase_eq (s : Hierarchy) (alive : Entity → Bool) (removedL : List Nat)
    (sc0 : List Nat) (h0 : removedScratch s removedL = some sc0)
    (hne : livenessScratch alive s.external_parents sc0 ≠ []) :
    ∃ ents,
      reindexRange (removalPass (initRState s alive sc0) s.sorted).2.entities
          (removalPass (initRState s alive sc0) s.sorted).1
          (removalPass (initRState s alive sc0) s.sorted).2.min_index
          (removalPass (initRState s alive sc0) s.sorted).1.length = some ents ∧
      removalPhase s alive removedL
        = some { sorted := (removalPass (initRState s alive sc0) s.sorted).1
                 entities := ents
                 children := (removalPass (initRState s alive sc0) s.sorted).2.children
                 current_parent :=
                   (removalPass (initRState s alive sc0) s.sorted).2.current_parent
                 external_parents :=
                   (removalPass (initRState s alive sc0) s.sorted).2.scratch.foldl
                     setRemove s.external_parents
                 changed := s.changed ++
                   (removalPass (initRState s alive sc0) s.sorted).2.scratch.map
                     HierarchyEvent.Removed
                 scratch_set := (removalPass (initRState s alive sc0) s.sorted).2.scratch } := by
  obtain ⟨ents, hents⟩ := reindexRange_stop_some
    (removalPass (initRState s alive sc0) s.sorted).2.entities
    (removalPass (initRState s alive sc0) s.sorted).1
    (removalPass (initRState s alive sc0) s.sorted).2.min_index
  refine ⟨ents, hents, ?_⟩
  unfold removalPhase
  rw [h0]
  simp only [Option.bind_eq_bind, Option.some_bind]
  rw [if_neg (by simpa using hne)]
  unfold initRState at hents
  rw [hents]
  rfl

theorem maintain_only_removed (s : Hierarchy) (alive : Entity → Bool)
    (parents : Entity → Option Entity) (removedL : List Nat) (s1 : Hierarchy)
    (h : removalPhase s alive removedL = some s1) :
    maintain s alive parents [] [] removedL
      = some (pruneExternal { s1 with scratch_set := [] }) := by
  unfold maintain
  rw [h]
  simp only [Option.bind_eq_bind, Option.some_bind, List.foldlM_nil, Option.pure_def,
    List.isEmpty_nil, if_true]

theorem pruneExternal_changed (t : Hierarchy) : (pruneExternal t).changed = t.changed :=
  rfl

theorem pruneExternal_external_subset (t : Hierarchy) (x : Nat)
    (h : x ∈ (pruneExternal t).external_parents) : x ∈ t.external_parents :=
  mem_foldl_setRemove_of_mem _ _ _ h

theorem pruneExternal_sorted (t : Hierarchy) : (pruneExternal t).sorted = t.sorted :=
  rfl

theorem pruneExternal_entities (t : Hierarchy) :
    (pruneExternal t).entities = t.entities := rfl

theorem pruneExternal_children (t : Hierarchy) :
    (pruneExternal t).children = t.children := rfl

/-- **C5**, amended: a `maintain` call with all three event sets empty, on a
state in which every external parent is alive and has a children-map entry
(both facts hold in every reachable state), leaves every field except the
transient scratch set unchanged — in particular the sorted sequence, the
position index, the children map, the current-parent map and the
external-parents set — and appends no events. -/
theorem c5_amended_empty_tick_noop (s : Hierarchy) (alive : Entity → Bool)
    (parents : Entity → Option Entity)
    (h1 : ∀ p ∈ s.external_parents, alive p = true)
    (h2 : ∀ p ∈ s.external_parents, (alGet s.children p).isSome = true) :
    maintain s alive parents [] [] [] = some { s with scratch_set := [] } := by
  unfold maintain
  rw [removalPhase_empty s alive h1]
  simp only [Option.bind_eq_bind, Option.some_bind, List.foldlM_nil, Option.pure_def,
    Option.some_bind, List.isEmpty_nil, if_true]
  exact congrArg some (pruneExternal_id _ h2)

/-- Witness for the amended C5 theorem at a concrete state. -/
theorem c5_amended_empty_tick_noop_witness :
    maintain
        { sorted := [7], entities := [(7, 0)], children := [(5, [7])]
          current_parent := [(7, 5)], external_parents := [5]
          changed := [], scratch_set := [3] }
        (fun _ => true) (fun _ => none) [] [] []
      = some { sorted := [7], entities := [(7, 0)], children := [(5, [7])]
               current_parent := [(7, 5)], external_parents := [5]
               changed := [], scratch_set := [] } :=
  c5_amended_empty_tick_noop _ _ _ (by decide) (by decide)

theorem childrenPush_getD_self (ch : List (Nat × List Entity)) (p : Entity)
    (i : Entity) :
    (alGet (childrenPush ch p i) p).getD [] = (alGet ch p).getD [] ++ [i] := by
  unfold childrenPush
  cases hg : alGet ch p with
  | some cs => simp [alGet_alInsert_self, hg]
  | none => simp [alGet_alInsert_self, hg]

theorem childrenPush_ne (ch : List (Nat × List Entity)) (p : Entity) (i : Entity)
    (e : Nat) (h : e ≠ p) : alGet (childrenPush ch p i) e = alGet ch e := by
  unfold childrenPush
  cases alGet ch p with
  | some cs => exact alGet_alInsert_ne ch p (cs ++ [i]) e h
  | none => exact alGet_alInsert_ne ch p [i] e h

theorem insertStep_children_field (alive : Entity → Bool)
    (parents : Entity → Option Entity) (s : Hierarchy) (i : Nat) (s₁ : Hierarchy)
    (h : insertStep alive parents s i = some s₁) :
    s₁.children =
      (if alive i then
        match parents i with
        | some p => childrenPush s.children p i
        | none => s.children
      else s.children) := by
  unfold insertStep at h
  by_cases hai : alive i
  · rw [if_pos hai] at h
    cases hpi : parents i with
    | none =>
      rw [hpi] at h
      obtain rfl := Option.some.inj h
      simp [hai, hpi]
    | some p =>
      rw [hpi] at h
      simp only at h
      split at h
      · exact Option.noConfusion h
      · split at h
        · exact Option.noConfusion h
        · obtain rfl := Option.some.inj h
          simp [hai, hpi]
  · rw [if_neg hai] at h
    obtain rfl := Option.some.inj h
    simp [hai]

theorem insertStep_childrenOf (alive : Entity → Bool)
    (parents : Entity → Option Entity) (s : Hierarchy) (i : Nat) (s₁ : Hierarchy)
    (e : Entity) (h : insertStep alive parents s i = some s₁) :
    s₁.childrenOf e = s.childrenOf e ++
      (if alive i && decide (parents i = some e) then [i] else []) := by
  have hch := insertStep_children_field alive parents s i s₁ h
  unfold Hierarchy.childrenOf
  by_cases hai : alive i
  · cases hpi : parents i with
    | none => simp [hch, hai, hpi]
    | some p =>
      by_cases hep : e = p
      · subst hep
        rw [hch]
        simp only [hai, hpi, if_true, decide_eq_true_eq]
        simp [childrenPush_getD_self]
      · rw [hch]
        simp only [hai, hpi, if_true]
        rw [childrenPush_ne s.children p i e hep]
        have hpe : p ≠ e := fun hc => hep hc.symm
        simp [hpe]
  · simp [hch, hai]

theorem insertFold_childrenOf (alive : Entity → Bool)
    (parents : Entity → Option Entity) (l : List Nat) (s t : Hierarchy) (e : Entity)
    (h : l.foldlM (insertStep alive parents) s = some t) :
    t.childrenOf e = s.childrenOf e ++
      l.filter (fun i => alive i && decide (parents i = some e)) := by
  induction l generalizing s with
  | nil =>
    obtain rfl := Option.some.inj h
    simp
  | cons i is ih =>
    simp only [List.foldlM_cons] at h
    cases hstep : insertStep alive parents s i with
    | none => rw [hstep] at h; exact Option.noConfusion h
    | some s₁ =>
      rw [hstep] at h
      simp only [Option.bind_eq_bind, Option.some_bind] at h
      rw [ih s₁ h, insertStep_childrenOf alive parents s i s₁ e hstep]
      by_cases hc : alive i && decide (parents i = some e)
      · simp [List.filter_cons, hc, List.append_assoc]
      · simp [List.filter_cons, hc]

theorem findIdx_eraseIdx_missing (x : Nat) :
    ∀ (cs : List Nat) (pos : Nat),
      cs.findIdx? (fun e => e = x) = some pos →
      ∀ c ∈ cs, c ∉ cs.eraseIdx pos → c = x := by
  intro cs
  induction cs with
  | nil =>
    intro pos h
    simp at h
  | cons d ds ih =>
    intro pos h c hc hnc
    rw [show (d :: ds).findIdx? (fun e => e = x)
        = if d = x then some 0
          else ((ds.findIdx? (fun e => e = x)).map (fun i => i + 1))
      from by simp [List.findIdx?_cons]] at h
    by_cases hdx : d = x
    · rw [if_pos hdx] at h
      obtain rfl := Option.some.inj h
      rcases List.mem_cons.mp hc with rfl | hc2
      · exact hdx
      · exact absurd hc2 hnc
    · rw [if_neg hdx] at h
      cases hf : ds.findIdx? (fun e => e = x) with
      | none =>
        rw [hf] at h
        exact Option.noConfusion h
      | some q =>
        rw [hf] at h
        simp only [Option.map_some'] at h
        obtain rfl := Option.some.inj h
        rcases List.mem_cons.mp hc with rfl | hc2
        · exact absurd (List.mem_cons_self _ _) hnc
        · refine ih q hf c hc2 ?_
          intro hmem
          exact hnc (List.mem_cons_of_mem _ hmem)

theorem findIdx_eraseIdx_not_mem (x : Nat) :
    ∀ (cs : List Nat) (pos : Nat),
      cs.findIdx? (fun e => e = x) = some pos → cs.Nodup →
      x ∉ cs.eraseIdx pos := by
  intro cs
  induction cs with
  | nil =>
    intro pos h
    simp at h
  | cons d ds ih =>
    intro pos h hnd
    rw [show (d :: ds).findIdx? (fun e => e = x)
        = if d = x then some 0
          else ((ds.findIdx? (fun e => e = x)).map (fun i => i + 1))
      from by simp [List.findIdx?_cons]] at h
    rw [List.nodup_cons] at hnd
    by_cases hdx : d = x
    · rw [if_pos hdx] at h
      obtain rfl := Option.some.inj h
      rw [← hdx]
      exact hnd.1
    · rw [if_neg hdx] at h
      cases hf : ds.findIdx? (fun e => e = x) with
      | none =>
        rw [hf] at h
        exact Option.noConfusion h
      | some q =>
        rw [hf] at h
        simp only [Option.map_some'] at h
        obtain rfl := Option.some.inj h
        intro hmem
        rcases List.mem_cons.mp hmem with heq | hmem2
        · exact hdx heq.symm
        · exact ih q hf hnd.2 hmem2

theorem detachChild_lookup_ne (ch : List (Nat × List Entity)) (A x p : Nat)
    (h : p ≠ A) : alGet (detachChild ch A x) p = alGet ch p := by
  unfold detachChild
  cases hg : alGet ch A with
  | none => simp only [hg]
  | some cs =>
    simp only [hg]
    cases hf : cs.findIdx? (fun e => e = x) with
    | none => simp only [hf]
    | some pos =>
      simp only [hf]
      exact alGet_alInsert_ne ch A (cs.eraseIdx pos) p h

theorem detachChild_self_sublist (ch : List (Nat × List Entity)) (A x : Nat) :
    List.Sublist ((alGet (detachChild ch A x) A).getD [])
      ((alGet ch A).getD []) := by
  unfold detachChild
  cases hg : alGet ch A with
  | none =>
    simp only [hg]
    exact List.Sublist.refl _
  | some cs =>
    simp only [hg]
    cases hf : cs.findIdx? (fun e => e = x) with
    | none =>
      simp only [hf, hg]
      exact List.Sublist.refl _
    | some pos =>
      simp only [hf, alGet_alInsert_self, Option.getD_some]
      exact List.eraseIdx_sublist cs pos

theorem detachChild_self_missing (ch : List (Nat × List Entity)) (A x : Nat)
    (c : Nat) (hc : c ∈ (alGet ch A).getD [])
    (hnc : c ∉ (alGet (detachChild ch A x) A).getD []) : c = x := by
  unfold detachChild at hnc
  cases hg : alGet ch A with
  | none =>
    rw [hg] at hc
    exact absurd hc (List.not_mem_nil c)
  | some cs =>
    simp only [hg, Option.getD_some] at hnc hc
    cases hf : cs.findIdx? (fun e => e = x) with
    | none =>
      simp only [hf, hg, Option.getD_some] at hnc
      exact absurd hc hnc
    | some pos =>
      simp only [hf, alGet_alInsert_self, Option.getD_some] at hnc
      exact findIdx_eraseIdx_missing x cs pos hf c hc hnc

theorem detachChild_self_not_mem (ch : List (Nat × List Entity)) (A x : Nat)
    (hnd : ∀ cs, alGet ch A = some cs → cs.Nodup) :
    x ∉ (alGet (detachChild ch A x) A).getD [] := by
  unfold detachChild
  cases hg : alGet ch A with
  | none =>
    simp only [hg]
    exact List.not_mem_nil x
  | some cs =>
    simp only [hg]
    cases hf : cs.findIdx? (fun e => e = x) with
    | none =>
      simp only [hf, hg, Option.getD_some]
      intro hmem
      rw [List.findIdx?_eq_none_iff] at hf
      have := hf x hmem
      simp at this
    | some pos =>
      simp only [hf, alGet_alInsert_self, Option.getD_some]
      exact findIdx_eraseIdx_not_mem x cs pos hf (hnd cs hg)

theorem childrenPush_self (ch : List (Nat × List Entity)) (p : Entity)
    (i : Entity) :
    alGet (childrenPush ch p i) p = some ((alGet ch p).getD [] ++ [i]) := by
  unfold childrenPush
  cases hg : alGet ch p with
  | some cs =>
    simp only [hg, alGet_alInsert_self, Option.getD_some]
  | none =>
    simp only [hg, alGet_alInsert_self, Option.getD_none, List.nil_append]

theorem childrenConsB_spec (s : Hierarchy) (h : childrenConsB s = true) :
    ∀ p cs, alGet s.children p = some cs →
      (∀ c ∈ cs, alGet s.current_parent c = some p) ∧ cs.Nodup := by
  intro p cs hg
  have h1 := List.all_eq_true.mp h (p, cs) (mem_of_alGet _ _ _ hg)
  rw [Bool.and_eq_true] at h1
  refine ⟨?_, of_decide_eq_true h1.1⟩
  intro c hc
  have := List.all_eq_true.mp h1.2 c hc
  exact (beq_iff_eq).mp this

/-- The reparent step either leaves the children and current-parent maps
unchanged (dead entity, no parent component, unchanged parent), or performs
the order-preserving detach from the old parent followed by the append to
the new parent, recording the new link. -/
theorem modifiedStep_fields (alive : Entity → Bool)
    (parents : Entity → Option Entity) (s : Hierarchy) (x : Nat) (t : Hierarchy)
    (h : modifiedStep alive parents s x = some t) :
    (t.children = s.children ∧ t.current_parent = s.current_parent) ∨
    ∃ B, alive x = true ∧ parents x = some B ∧
      alGet s.current_parent x ≠ some B ∧
      t.children = childrenPush
        (match alGet s.current_parent x with
         | some A => detachChild s.children A x
         | none => s.children) B x ∧
      t.current_parent = alInsert s.current_parent x B := by
  unfold modifiedStep at h
  by_cases hax : alive x
  · rw [if_pos hax] at h
    cases hpx : parents x with
    | none =>
      rw [hpx] at h
      obtain rfl := Option.some.inj h
      exact Or.inl ⟨rfl, rfl⟩
    | some B =>
      simp only [hpx] at h
      by_cases hold : alGet s.current_parent x = some B
      · rw [if_pos hold] at h
        obtain rfl := Option.some.inj h
        exact Or.inl ⟨rfl, rfl⟩
      · rw [if_neg hold] at h
        split at h
        · exact Option.noConfusion h
        · split at h
          · exact Option.noConfusion h
          · obtain rfl := Option.some.inj h
            exact Or.inr ⟨B, hax, rfl, hold, rfl, rfl⟩
  · rw [if_neg hax] at h
    obtain rfl := Option.some.inj h
    exact Or.inl ⟨rfl, rfl⟩

/-- Effect of one reparent step on a fixed children list: either the moved
entity is appended at the end (and was not there before), or the list only
loses elements, and the only element it can lose is the moved entity. -/
theorem modifiedStep_childrenOf (alive : Entity → Bool)
    (parents : Entity → Option Entity) (s : Hierarchy) (x : Nat) (t : Hierarchy)
    (e : Entity) (h : modifiedStep alive parents s x = some t)
    (hcons : ∀ p cs, alGet s.children p = some cs →
      (∀ c ∈ cs, alGet s.current_parent c = some p) ∧ cs.Nodup) :
    (t.childrenOf e = s.childrenOf e ++ [x] ∧ x ∉ s.childrenOf e) ∨
    (List.Sublist (t.childrenOf e) (s.childrenOf e) ∧
      ∀ c ∈ s.childrenOf e, c ∉ t.childrenOf e → c = x) := by
  rcases modifiedStep_fields alive parents s x t h with
    ⟨hch, _⟩ | ⟨B, hax, hpx, hold, hch, hcp⟩
  · right
    unfold Hierarchy.childrenOf
    rw [hch]
    exact ⟨List.Sublist.refl _, fun c hc hnc => absurd hc hnc⟩
  · unfold Hierarchy.childrenOf
    rw [hch]
    by_cases heB : e = B
    · subst heB
      left
      rw [childrenPush_self]
      simp only [Option.getD_some]
      cases hop : alGet s.current_parent x with
      | none =>
        simp only [hop]
        refine ⟨by simp, ?_⟩
        intro hmem
        cases hg : alGet s.children e with
        | none => rw [hg] at hmem; exact absurd hmem (List.not_mem_nil x)
        | some cs =>
          rw [hg] at hmem
          simp only [Option.getD_some] at hmem
          have := (hcons e cs hg).1 x hmem
          rw [hop] at this
          exact Option.noConfusion this
      | some A =>
        simp only [hop]
        have hAe : A ≠ e := by
          intro hc
          exact hold (by rw [hop, hc])
        rw [detachChild_lookup_ne s.children A x e (fun hc => hAe hc.symm)]
        refine ⟨by simp, ?_⟩
        intro hmem
        cases hg : alGet s.children e with
        | none => rw [hg] at hmem; exact absurd hmem (List.not_mem_nil x)
        | some cs =>
          rw [hg] at hmem
          simp only [Option.getD_some] at hmem
          have := (hcons e cs hg).1 x hmem
          rw [hop] at this
          exact hAe (Option.some.inj this)
    · right
      rw [childrenPush_ne _ B x e heB]
      cases hop : alGet s.current_parent x with
      | none =>
        simp only [hop]
        exact ⟨List.Sublist.refl _, fun c hc hnc => absurd hc hnc⟩
      | some A =>
        simp only [hop]
        by_cases heA : e = A
        · subst heA
          exact ⟨detachChild_self_sublist s.children e x,
            fun c hc hnc => detachChild_self_missing s.children e x c hc hnc⟩
        · rw [detachChild_lookup_ne s.children A x e heA]
          exact ⟨List.Sublist.refl _, fun c hc hnc => absurd hc hnc⟩

/-- The reparent step preserves children-map consistency: every recorded
child list stays duplicate-free and its members keep recording that parent
as their current parent. -/
theorem modifiedStep_consistent (alive : Entity → Bool)
    (parents : Entity → Option Entity) (s : Hierarchy) (x : Nat) (t : Hierarchy)
    (h : modifiedStep alive parents s x = some t)
    (hcons : ∀ p cs, alGet s.children p = some cs →
      (∀ c ∈ cs, alGet s.current_parent c = some p) ∧ cs.Nodup) :
    ∀ p cs, alGet t.children p = some cs →
      (∀ c ∈ cs, alGet t.current_parent c = some p) ∧ cs.Nodup := by
  rcases modifiedStep_fields alive parents s x t h with
    ⟨hch, hcp⟩ | ⟨B, hax, hpx, hold, hch, hcp⟩
  · rw [hch, hcp]
    exact hcons
  · intro p cs hg
    rw [hch] at hg
    rw [hcp]
    have hxnotB : x ∉ (alGet s.children B).getD [] := by
      intro hmem
      cases hgB : alGet s.children B with
      | none => rw [hgB] at hmem; exact absurd hmem (List.not_mem_nil x)
      | some cs₀ =>
        rw [hgB] at hmem
        simp only [Option.getD_some] at hmem
        exact hold ((hcons B cs₀ hgB).1 x hmem)
    by_cases hpB : p = B
    · subst hpB
      rw [childrenPush_self] at hg
      obtain rfl := Option.some.inj hg
      have hbase : (alGet (match alGet s.current_parent x with
          | some A => detachChild s.children A x
          | none => s.children) p).getD [] = (alGet s.children p).getD [] := by
        cases hop : alGet s.current_parent x with
        | none => simp only [hop]
        | some A =>
          simp only [hop]
          have hAB : A ≠ p := by
            intro hc
            exact hold (by rw [hop, hc])
          rw [detachChild_lookup_ne s.children A x p (fun hc => hAB hc.symm)]
      rw [hbase]
      constructor
      · intro c hc
        rcases List.mem_append.mp hc with hc1 | hc2
        · cases hgB : alGet s.children p with
          | none => rw [hgB] at hc1; exact absurd hc1 (List.not_mem_nil c)
          | some cs₀ =>
            rw [hgB] at hc1
            simp only [Option.getD_some] at hc1
            have hcx : c ≠ x := by
              intro hcx
              refine hxnotB ?_
              rw [hgB]
              simp only [Option.getD_some]
              rw [← hcx]
              exact hc1
            rw [alGet_alInsert_ne s.current_parent x p c hcx]
            exact (hcons p cs₀ hgB).1 c hc1
        · obtain rfl : c = x := by simpa using hc2
          rw [alGet_alInsert_self]
      · rw [List.nodup_append]
        refine ⟨?_, List.nodup_singleton x, ?_⟩
        · cases hgB : alGet s.children p with
          | none => exact List.nodup_nil
          | some cs₀ => exact (hcons p cs₀ hgB).2
        · intro a ha hb
          obtain rfl : a = x := by simpa using hb
          exact hxnotB ha
    · rw [childrenPush_ne _ B x p hpB] at hg
      cases hop : alGet s.current_parent x with
      | none =>
        simp only [hop] at hg
        obtain ⟨h1, h2⟩ := hcons p cs hg
        refine ⟨?_, h2⟩
        intro c hc
        have hcx : c ≠ x := by
          intro hcx
          have := h1 c hc
          rw [hcx, hop] at this
          exact Option.noConfusion this
        rw [alGet_alInsert_ne s.current_parent x B c hcx]
        exact h1 c hc
      | some A =>
        simp only [hop] at hg
        by_cases hpA : p = A
        · subst hpA
          have hsub := detachChild_self_sublist s.children p x
          have hx := detachChild_self_not_mem s.children p x
            (fun cs₀ hgA => (hcons p cs₀ hgA).2)
          rw [hg] at hsub hx
          simp only [Option.getD_some] at hsub hx
          refine ⟨?_, ?_⟩
          · intro c hc
            have hcmem := hsub.subset hc
            cases hgA : alGet s.children p with
            | none => rw [hgA] at hcmem; exact absurd hcmem (List.not_mem_nil c)
            | some cs₀ =>
              rw [hgA] at hcmem
              simp only [Option.getD_some] at hcmem
              have hcx : c ≠ x := by
                intro hcx
                exact hx (hcx ▸ hc)
              rw [alGet_alInsert_ne s.current_parent x B c hcx]
              exact (hcons p cs₀ hgA).1 c hcmem
          · cases hgA : alGet s.children p with
            | none =>
              rw [hgA] at hsub
              have hnil : cs = [] := List.sublist_nil.mp (by simpa using hsub)
              rw [hnil]
              exact List.nodup_nil
            | some cs₀ =>
              rw [hgA] at hsub
              simp only [Option.getD_some] at hsub
              exact List.Nodup.sublist hsub (hcons p cs₀ hgA).2
        · rw [detachChild_lookup_ne s.children A x p hpA] at hg
          obtain ⟨h1, h2⟩ := hcons p cs hg
          refine ⟨?_, h2⟩
          intro c hc
          have hcx : c ≠ x := by
            intro hcx
            have := h1 c hc
            rw [hcx, hop] at this
            exact hpA (Option.some.inj this).symm
          rw [alGet_alInsert_ne s.current_parent x B c hcx]
          exact h1 c hc

/-- Folding the reparent step over a duplicate-free batch of modified links
preserves the relative order of the surviving children of `e` and appends
all newly attached children after them. -/
theorem modifiedFold_childrenOf (alive : Entity → Bool)
    (parents : Entity → Option Entity) (e : Entity) :
    ∀ (l : List Nat) (s t : Hierarchy),
      l.foldlM (modifiedStep alive parents) s = some t →
      (∀ p cs, alGet s.children p = some cs →
        (∀ c ∈ cs, alGet s.current_parent c = some p) ∧ cs.Nodup) →
      l.Nodup →
      ∃ kept gained, t.childrenOf e = kept ++ gained ∧
        List.Sublist kept (s.childrenOf e) ∧
        ∀ c ∈ gained, c ∈ l ∧ c ∉ s.childrenOf e := by
  intro l
  induction l with
  | nil =>
    intro s t h _ _
    obtain rfl := Option.some.inj h
    exact ⟨s.childrenOf e, [], (List.append_nil _).symm, List.Sublist.refl _,
      fun c hc => absurd hc (List.not_mem_nil c)⟩
  | cons x rest ih =>
    intro s t h hcons hnd
    simp only [List.foldlM_cons] at h
    cases hstep : modifiedStep alive parents s x with
    | none => rw [hstep] at h; exact Option.noConfusion h
    | some s₁ =>
      rw [hstep] at h
      simp only [Option.bind_eq_bind, Option.some_bind] at h
      rw [List.nodup_cons] at hnd
      obtain ⟨k₁, g₁, heq, hsub₁, hg₁⟩ := ih s₁ t h
        (modifiedStep_consistent alive parents s x s₁ hstep hcons) hnd.2
      rcases modifiedStep_childrenOf alive parents s x s₁ e hstep hcons with
        ⟨hgain, hxnot⟩ | ⟨hsub, hmiss⟩
      · rw [hgain] at hsub₁
        rw [List.sublist_append_iff] at hsub₁
        obtain ⟨a, b, rfl, ha, hb⟩ := hsub₁
        refine ⟨a, b ++ g₁, by rw [heq, List.append_assoc], ha, ?_⟩
        intro c hc
        rcases List.mem_append.mp hc with hcb | hcg
        · have hcx : c = x := by
            have := hb.subset hcb
            simpa using this
          subst hcx
          exact ⟨List.mem_cons_self _ _, hxnot⟩
        · obtain ⟨hcr, hcn⟩ := hg₁ c hcg
          refine ⟨List.mem_cons_of_mem _ hcr, ?_⟩
          intro hmem
          exact hcn (by rw [hgain]; exact List.mem_append_left _ hmem)
      · refine ⟨k₁, g₁, heq, List.Sublist.trans hsub₁ hsub, ?_⟩
        intro c hc
        obtain ⟨hcr, hcn⟩ := hg₁ c hc
        refine ⟨List.mem_cons_of_mem _ hcr, ?_⟩
        intro hmem
        by_cases hcs1 : c ∈ s₁.childrenOf e
        · exact hcn hcs1
        · have hcx := hmiss c hmem hcs1
          exact hnd.1 (hcx ▸ hcr)

/-- The removal scan leaves the children-map entry of `e` untouched when no
removed entity is `e` itself or records `e` as its current parent. -/
theorem removalPass_children_lookup (cp₀ : List (Nat × Entity)) (e : Entity) :
    ∀ (l : List Entity) (st : RState),
      (st.current_parent.map Prod.fst).Nodup →
      (∀ y, alGet st.current_parent y = none ∨
        alGet st.current_parent y = alGet cp₀ y) →
      (∀ r ∈ (removalPass st l).2.scratch, r ≠ e ∧ alGet cp₀ r ≠ some e) →
      alGet (removalPass st l).2.children e = alGet st.children e := by
  intro l
  induction l with
  | nil =>
    intro st _ _ _
    rfl
  | cons entity rest ih =>
    intro st hkeys hagree hsafe
    by_cases hrm : (st.scratch.contains entity ||
      (match alGet st.current_parent entity with
       | some p => st.scratch.contains p
       | none => false)) = true
    · have hstep : removalPass st (entity :: rest)
          = removalPass
            { scratch := setInsert st.scratch entity
              children := alRemove (swapDetach st.children st.current_parent entity)
                entity
              current_parent := alRemove st.current_parent entity
              entities := alRemove st.entities entity
              kcount := st.kcount
              min_index := if st.kcount < st.min_index then st.kcount
                else st.min_index }
            rest := by
        conv_lhs => unfold removalPass
        rw [if_pos hrm]
      rw [hstep] at hsafe ⊢
      have hent : entity ∈ (removalPass
          { scratch := setInsert st.scratch entity
            children := alRemove (swapDetach st.children st.current_parent entity)
              entity
            current_parent := alRemove st.current_parent entity
            entities := alRemove st.entities entity
            kcount := st.kcount
            min_index := if st.kcount < st.min_index then st.kcount
              else st.min_index } rest).2.scratch :=
        removalPass_scratch_mono rest _ entity (mem_setInsert_self _ _)
      obtain ⟨hene, hcpne⟩ := hsafe entity hent
      rw [ih _ (keysNodup_alRemove st.current_parent entity hkeys) ?_ hsafe]
      · show alGet (alRemove (swapDetach st.children st.current_parent entity)
            entity) e = alGet st.children e
        rw [alGet_alRemove_ne _ entity e (fun hc => hene hc.symm)]
        unfold swapDetach
        cases hcpe : alGet st.current_parent entity with
        | none => simp only [hcpe]
        | some pp =>
          simp only [hcpe]
          cases hch : alGet st.children pp with
          | none => simp only [hch]
          | some cs =>
            simp only [hch]
            cases hfi : cs.findIdx? (fun y => y = entity) with
            | none => simp only [hfi]
            | some pos =>
              simp only [hfi]
              have hppe : pp ≠ e := by
                rcases hagree entity with hnone | hag
                · rw [hcpe] at hnone
                  exact Option.noConfusion hnone
                · rw [hcpe] at hag
                  intro hc
                  exact hcpne (by rw [← hag, hc])
              exact alGet_alInsert_ne st.children pp (swapRemove cs pos) e
                (fun hc => hppe hc.symm)
      · intro y
        by_cases hy : y = entity
        · subst hy
          exact Or.inl (alGet_alRemove_self st.current_parent y hkeys)
        · rw [alGet_alRemove_ne st.current_parent entity y hy]
          exact hagree y
    · have hstep : removalPass st (entity :: rest)
          = (entity :: (removalPass { st with kcount := st.kcount + 1 } rest).1,
             (removalPass { st with kcount := st.kcount + 1 } rest).2) := by
        conv_lhs => unfold removalPass
        rw [if_neg hrm]
      rw [hstep] at hsafe ⊢
      exact ih _ hkeys hagree hsafe

/-- **C9**, amended: `children(e)` lists the immediate children of `e` in
event order, except in a tick in which a sibling child of `e` is removed.
(1) A tick of inserted links appends each new child of `e` in
event-processing order.  (2) A tick of modified links (no duplicate
delivery, consistent children map) detaches each moved entity from its old
parent's list with the order-preserving `Vec::remove` and appends it to its
new parent's list, so the surviving children of `e` keep their relative
order and every newly attached child follows them.  (3) A removal tick
leaves `children(e)` entirely unchanged when no removed entity is `e` or a
current child of `e`.  Only the removal of a sibling child of `e` — which
the removal phase detaches with `Vec::swap_remove`, moving the last sibling
into the freed slot — breaks the event order. -/
theorem c9_amended_children_event_order (s : Hierarchy) (alive : Entity → Bool)
    (parents : Entity → Option Entity) (e : Entity) :
    (∀ insertedL s', (∀ p ∈ s.external_parents, alive p = true) →
      maintain s alive parents insertedL [] [] = some s' →
      s'.childrenOf e = s.childrenOf e ++
        insertedL.filter (fun i => alive i && decide (parents i = some e))) ∧
    (∀ modifiedL s', (∀ p ∈ s.external_parents, alive p = true) →
      childrenConsB s = true → modifiedL.Nodup →
      maintain s alive parents [] modifiedL [] = some s' →
      ∃ kept gained, s'.childrenOf e = kept ++ gained ∧
        List.Sublist kept (s.childrenOf e) ∧
        ∀ c ∈ gained, c ∈ modifiedL ∧ c ∉ s.childrenOf e) ∧
    (∀ removedL s', (s.current_parent.map Prod.fst).Nodup →
      maintain s alive parents [] [] removedL = some s' →
      s'.changed.all (fun ev => match ev with
        | HierarchyEvent.Removed r =>
          decide (r ≠ e) && decide (alGet s.current_parent r ≠ some e)
        | HierarchyEvent.Modified _ => true) = true →
      s'.childrenOf e = s.childrenOf e) := by
  refine ⟨?_, ?_, ?_⟩
  · -- insert ticks append in event order
    intro insertedL s' h1 hm
    unfold maintain at hm
    rw [removalPhase_empty s alive h1] at hm
    simp only [Option.bind_eq_bind, Option.some_bind] at hm
    cases hfold : insertedL.foldlM (insertStep alive parents)
        { s with scratch_set := [] } with
    | none =>
      rw [show ({ s with scratch_set := [] } : Hierarchy)
          = { sorted := s.sorted, entities := s.entities, children := s.children,
              current_parent := s.current_parent,
              external_parents := s.external_parents,
              changed := s.changed, scratch_set := [] } from rfl] at hfold
      rw [hfold] at hm
      exact Option.noConfusion hm
    | some s2 =>
      rw [show ({ s with scratch_set := [] } : Hierarchy)
          = { sorted := s.sorted, entities := s.entities, children := s.children,
              current_parent := s.current_parent,
              external_parents := s.external_parents,
              changed := s.changed, scratch_set := [] } from rfl] at hfold
      rw [hfold] at hm
      simp only [Option.some_bind, List.foldlM_nil, Option.pure_def,
        Option.some_bind] at hm
      have hch : s'.children = s2.children := by
        obtain rfl := Option.some.inj hm
        by_cases hsc : s2.scratch_set.isEmpty
        · simp only [if_pos hsc]; rfl
        · simp only [if_neg hsc]; rfl
      have hfc := insertFold_childrenOf alive parents insertedL _ s2 e hfold
      unfold Hierarchy.childrenOf at hfc ⊢
      rw [hch, hfc]
  · -- reparent ticks keep surviving children in order and append newcomers
    intro modifiedL s' h1 hcons hndl hm
    unfold maintain at hm
    rw [removalPhase_empty s alive h1] at hm
    simp only [Option.bind_eq_bind, Option.some_bind, List.foldlM_nil,
      Option.pure_def] at hm
    cases hfold : modifiedL.foldlM (modifiedStep alive parents)
        { s with scratch_set := [] } with
    | none =>
      rw [show ({ s with scratch_set := [] } : Hierarchy)
          = { sorted := s.sorted, entities := s.entities, children := s.children,
              current_parent := s.current_parent,
              external_parents := s.external_parents,
              changed := s.changed, scratch_set := [] } from rfl] at hfold
      rw [hfold] at hm
      exact Option.noConfusion hm
    | some s3 =>
      rw [show ({ s with scratch_set := [] } : Hierarchy)
          = { sorted := s.sorted, entities := s.entities, children := s.children,
              current_parent := s.current_parent,
              external_parents := s.external_parents,
              changed := s.changed, scratch_set := [] } from rfl] at hfold
      rw [hfold] at hm
      simp only [Option.some_bind] at hm
      have hch : s'.children = s3.children := by
        obtain rfl := Option.some.inj hm
        by_cases hsc : s3.scratch_set.isEmpty
        · simp only [if_pos hsc]; rfl
        · simp only [if_neg hsc]; rfl
      obtain ⟨kept, gained, heq, hsub, hg⟩ :=
        modifiedFold_childrenOf alive parents e modifiedL _ s3 hfold
          (fun p cs hgc => childrenConsB_spec s hcons p cs hgc) hndl
      refine ⟨kept, gained, ?_, hsub, hg⟩
      unfold Hierarchy.childrenOf at heq ⊢
      rw [hch]
      exact heq
  · -- removal ticks not touching `e` leave its children untouched
    intro removedL s' hkP hm hsafe
    cases hsc0 : removedScratch s removedL with
    | none =>
      unfold maintain removalPhase at hm
      rw [hsc0] at hm
      simp at hm
    | some sc0 =>
      by_cases hemp : livenessScratch alive s.external_parents sc0 = []
      · have hrp : removalPhase s alive removedL
            = some { s with scratch_set := [] } := by
          unfold removalPhase
          rw [hsc0]
          simp only [Option.bind_eq_bind, Option.some_bind]
          rw [hemp]
          simp only [List.isEmpty_nil, if_true, Option.pure_def]
        have hm2 := maintain_only_removed s alive parents removedL _ hrp
        rw [hm2] at hm
        obtain rfl := Option.some.inj hm
        unfold Hierarchy.childrenOf
        rw [pruneExternal_children]
      · obtain ⟨ents, hreix, hrp⟩ := removalPhase_eq s alive removedL sc0 hsc0 hemp
        have hm2 := maintain_only_removed s alive parents removedL _ hrp
        rw [hm2] at hm
        obtain rfl := Option.some.inj hm
        have hsafe2 : ∀ r ∈ (removalPass (initRState s alive sc0) s.sorted).2.scratch,
            r ≠ e ∧ alGet s.current_parent r ≠ some e := by
          intro r hr
          have hmem : HierarchyEvent.Removed r ∈ s.changed ++
              ((removalPass (initRState s alive sc0) s.sorted).2.scratch.map
                HierarchyEvent.Removed) :=
            List.mem_append_right _ (List.mem_map_of_mem _ hr)
          have := List.all_eq_true.mp hsafe _ hmem
          simp only [Bool.and_eq_true] at this
          exact ⟨of_decide_eq_true this.1, of_decide_eq_true this.2⟩
        unfold Hierarchy.childrenOf
        rw [pruneExternal_children]
        show (alGet (removalPass (initRState s alive sc0) s.sorted).2.children
            e).getD [] = (alGet s.children e).getD []
        rw [removalPass_children_lookup s.current_parent e s.sorted
          (initRState s alive sc0) hkP (fun y => Or.inr rfl) hsafe2]
        rfl

/-- Witness for the amended C9 theorem on a concrete state with
`children(5) = [1, 2, 3]`: an insert tick appends the new child 9, a
reparent tick moving child 2 under entity 6 leaves the survivors `[1, 3]`
in order, and a removal tick deleting the unrelated entity 7 leaves
`children(5)` untouched. -/
theorem c9_amended_children_event_order_witness :
    (Hierarchy.childrenOf c9w1 5 = Hierarchy.childrenOf c9base 5 ++
      List.filter (fun i => (fun _ => true) i && decide (c9parentsW i = some 5))
        [9]) ∧
    (∃ kept gained, Hierarchy.childrenOf c9w2 5 = kept ++ gained ∧
      List.Sublist kept (Hierarchy.childrenOf c9base 5) ∧
      ∀ c ∈ gained, c ∈ [2] ∧ c ∉ Hierarchy.childrenOf c9base 5) ∧
    Hierarchy.childrenOf c9w3 5 = Hierarchy.childrenOf c9base 5 :=
  have h := c9_amended_children_event_order c9base (fun _ => true) c9parentsW 5
  ⟨h.1 [9] c9w1 (by decide) (by decide),
   h.2.1 [2] c9w2 (by decide) (by decide) (by decide) (by decide),
   h.2.2 [7] c9w3 (by decide) (by decide) (by decide)⟩

theorem foldl_min_spec (xs : List Nat) (a : Nat) :
    (xs.foldl Nat.min a ∈ a :: xs) ∧ (∀ x ∈ a :: xs, xs.foldl Nat.min a ≤ x) := by
  induction xs generalizing a with
  | nil => exact ⟨List.mem_singleton.mpr rfl, by simp⟩
  | cons y ys ih =>
    obtain ⟨hmem, hle⟩ := ih (Nat.min a y)
    simp only [List.foldl_cons]
    constructor
    · rcases List.mem_cons.mp hmem with hm | hm
      · have hcase : Nat.min a y = a ∨ Nat.min a y = y := by
          have hd : Nat.min a y = if a ≤ y then a else y := Nat.min_def
          rw [hd]; split
          · exact Or.inl rfl
          · exact Or.inr rfl
        rcases hcase with hc | hc
        · rw [hm, hc]; exact List.mem_cons_self _ _
        · rw [hm, hc]; exact List.mem_cons_of_mem _ (List.mem_cons_self _ _)
      · exact List.mem_cons_of_mem _ (List.mem_cons_of_mem _ hm)
    · intro x hx
      rcases List.mem_cons.mp hx with rfl | hx
      · exact le_trans (hle _ (List.mem_cons_self _ _)) (Nat.min_le_left _ _)
      · rcases List.mem_cons.mp hx with rfl | hx
        · exact le_trans (hle _ (List.mem_cons_self _ _)) (Nat.min_le_right _ _)
        · exact hle _ (List.mem_cons_of_mem _ hx)

theorem listMin?_cons_spec (x0 : Nat) (xs : List Nat) :
    ∃ m, listMin? (x0 :: xs) = some m ∧ m ∈ x0 :: xs ∧ ∀ x ∈ x0 :: xs, m ≤ x := by
  obtain ⟨hmem, hle⟩ := foldl_min_spec xs x0
  exact ⟨xs.foldl Nat.min x0, rfl, hmem, hle⟩

theorem mapM_alGet_some (ents : List (Nat × Nat)) (cs : List Nat)
    (h : ∀ c ∈ cs, (alGet ents c).isSome = true) :
    ∃ idxs, cs.mapM (fun c => alGet ents c) = some idxs ∧
      (∀ c ∈ cs, ∀ i, alGet ents c = some i → i ∈ idxs) ∧
      (∀ i ∈ idxs, ∃ c ∈ cs, alGet ents c = some i) ∧
      idxs.length = cs.length := by
  induction cs with
  | nil => exact ⟨[], rfl, by simp, by simp, rfl⟩
  | cons c cs ih =>
    obtain ⟨i0, hi0⟩ := Option.isSome_iff_exists.mp (h c (List.mem_cons_self c cs))
    obtain ⟨idxs, hm, hfwd, hbwd, hlen⟩ := ih (fun c' hc' => h c' (List.mem_cons_of_mem _ hc'))
    refine ⟨i0 :: idxs, ?_, ?_, ?_, by simp [hlen]⟩
    · rw [List.mapM_cons, hi0, hm]; rfl
    · intro c' hc' i hi
      rcases List.mem_cons.mp hc' with rfl | hc'
      · rw [hi0] at hi
        exact List.mem_cons.mpr (Or.inl (Option.some.inj hi).symm)
      · exact List.mem_cons_of_mem _ (hfwd c' hc' i hi)
    · intro i hi
      rcases List.mem_cons.mp hi with rfl | hi
      · exact ⟨c, List.mem_cons_self _ _, hi0⟩
      · obtain ⟨c', hc', hg⟩ := hbwd i hi
        exact ⟨c', List.mem_cons_of_mem _ hc', hg⟩

/-- **C7**: the insertion phase places an entity with a newly inserted link
at a position that is at most the position currently held by each of its
recorded children, and exactly at the end of the sequence when it has no
recorded children.  (`insertStep` is the loop body of `maintain`'s insertion
phase for one inserted entity; the hypotheses say the entity is alive,
carries a link, and every recorded child is in the position index with an
in-range position — consequences of the data-model invariants.) -/
theorem c7_insert_position (alive : Entity → Bool) (parents : Entity → Option Entity)
    (s : Hierarchy) (e p : Entity)
    (hai : alive e = true) (hpi : parents e = some p)
    (hidx : ∀ c ∈ (alGet s.children e).getD [], (alGet s.entities c).isSome = true ∧
      (alGet s.entities c).getD 0 < s.sorted.length) :
    ∃ s' m, insertStep alive parents s e = some s' ∧
      s'.sorted[m]? = some e ∧
      ((alGet s.children e).getD [] = [] → m = s.sorted.length) ∧
      (∀ c ∈ (alGet s.children e).getD [], ∀ i,
        alGet s.entities c = some i → m ≤ i) := by
  cases hch : alGet s.children e with
  | none =>
    have heq : ∃ s', insertStep alive parents s e = some s' ∧
        s'.sorted = s.sorted ++ [e] := by
      unfold insertStep
      rw [if_pos hai, hpi]
      simp only [hch]
      rw [if_pos (le_refl s.sorted.length)]
      exact ⟨_, rfl, rfl⟩
    obtain ⟨s', heq, hsorted⟩ := heq
    refine ⟨s', s.sorted.length, heq, ?_, fun _ => rfl, ?_⟩
    · rw [hsorted]; exact List.getElem?_concat_length s.sorted e
    · intro c hc
      simp at hc
  | some cs =>
    cases hcs : cs with
    | nil =>
      subst hcs
      have heq : ∃ s', insertStep alive parents s e = some s' ∧
          s'.sorted = s.sorted ++ [e] := by
        unfold insertStep
        rw [if_pos hai, hpi]
        simp only [hch, List.mapM_nil, listMin?]
        rw [if_pos (le_refl s.sorted.length)]
        exact ⟨_, rfl, rfl⟩
      obtain ⟨s', heq, hsorted⟩ := heq
      refine ⟨s', s.sorted.length, heq, ?_, fun _ => rfl, ?_⟩
      · rw [hsorted]; exact List.getElem?_concat_length s.sorted e
      · intro c hc
        simp at hc
    | cons c0 rest =>
      subst hcs
      simp only [hch, Option.getD_some] at hidx
      have hall : ∀ c ∈ c0 :: rest, (alGet s.entities c).isSome = true := by
        intro c hc
        exact (hidx c hc).1
      obtain ⟨idxs, hm, hfwd, hbwd, hlen⟩ := mapM_alGet_some s.entities _ hall
      have hne : idxs ≠ [] := by
        intro hnil
        rw [hnil] at hlen
        exact List.cons_ne_nil c0 rest (List.length_eq_zero.mp hlen.symm)
      obtain ⟨i0, is, hidxs⟩ := List.exists_cons_of_ne_nil hne
      subst hidxs
      obtain ⟨mn, hmn, hmnmem, hmnle⟩ := listMin?_cons_spec i0 is
      have hmlt : mn < s.sorted.length := by
        obtain ⟨c, hc, hg⟩ := hbwd mn hmnmem
        have := (hidx c hc).2
        rw [hg] at this
        exact this
      have hnotge : ¬ mn ≥ s.sorted.length := Nat.not_le.mpr hmlt
      obtain ⟨r, hr⟩ := reindexRange_stop_some (alInsert s.entities e mn)
        (s.sorted.insertIdx mn e) mn
      have heq : ∃ s', insertStep alive parents s e = some s' ∧
          s'.sorted = s.sorted.insertIdx mn e := by
        unfold insertStep
        rw [if_pos hai, hpi]
        simp only [hch, hm, hmn]
        rw [if_neg hnotge]
        simp only [List.length_insertIdx mn s.sorted (Nat.le_of_lt hmlt)] at hr ⊢
        simp only [hr]
        exact ⟨_, rfl, rfl⟩
      obtain ⟨s', heq, hsorted⟩ := heq
      refine ⟨s', mn, heq, ?_, ?_, ?_⟩
      · rw [hsorted]
        have hlen' : mn < (s.sorted.insertIdx mn e).length := by
          rw [List.length_insertIdx mn s.sorted (Nat.le_of_lt hmlt)]
          omega
        rw [List.getElem?_eq_getElem hlen']
        exact congrArg some
          (List.getElem_insertIdx_self s.sorted e mn (Nat.le_of_lt hmlt))
      · intro habs
        simp at habs
      · intro c hc i hi
        simp only [Option.getD_some] at hc
        exact hmnle i (hfwd c hc i hi)

/-- Witness for the C7 theorem: entity 5 (with recorded child 1 at position
0) gains its own link; it is placed at position 0, before its child. -/
theorem c7_insert_position_witness :
    ∃ s' m, insertStep (fun _ => true)
        (fun e => if e = 5 then some 9 else none)
        { sorted := [1], entities := [(1, 0)], children := [(5, [1])]
          current_parent := [(1, 5)], external_parents := [5]
          changed := [], scratch_set := [] } 5
      = some s' ∧
      s'.sorted[m]? = some 5 ∧
      ((alGet ([(5, [1])] : List (Nat × List Entity)) 5).getD [] = [] → m = 1) ∧
      (∀ c ∈ (alGet ([(5, [1])] : List (Nat × List Entity)) 5).getD [], ∀ i,
        alGet ([(1, 0)] : List (Nat × Nat)) c = some i → m ≤ i) :=
  c7_insert_position (fun _ => true) (fun e => if e = 5 then some 9 else none)
    _ 5 9 (by decide) (by decide) (by decide)

/-! ## The cascading-removal proof (C4) -/

theorem RemovedBy_mono (cp : List (Nat × Entity)) (l : List Nat) (sc sc' : List Nat)
    (hsub : ∀ x ∈ sc, x ∈ sc') (x : Nat) (h : RemovedBy cp l sc x) :
    RemovedBy cp l sc' x := by
  induction h with
  | seed y hy => exact RemovedBy.seed y (hsub y hy)
  | parentSeed y p hg hp => exact RemovedBy.parentSeed y p hg (hsub p hp)
  | parentChain y p hg hp _ ih => exact RemovedBy.parentChain y p hg hp ih

theorem RemovedBy_head_not (cp : List (Nat × Entity)) (h : Nat) (t : List Nat)
    (sc : List Nat)
    (hhead : (match alGet cp h with
      | some p => !(h :: t).contains p
      | none => true) = true)
    (hs : h ∉ sc) (hps : ∀ p, alGet cp h = some p → p ∉ sc)
    (hr : RemovedBy cp (h :: t) sc h) : False := by
  cases hr with
  | seed _ hy => exact hs hy
  | parentSeed _ p hg hp => exact hps p hg hp
  | parentChain _ p hg hp _ =>
    rw [hg] at hhead
    simp only [Bool.not_eq_true'] at hhead
    have hc := (contains_true_iff (h :: t) p).mpr hp
    rw [hhead] at hc
    exact Bool.noConfusion hc

theorem RemovedBy_tail_kept (cp : List (Nat × Entity)) (h : Nat) (t : List Nat)
    (sc : List Nat)
    (hhead : (match alGet cp h with
      | some p => !(h :: t).contains p
      | none => true) = true)
    (hs : h ∉ sc) (hps : ∀ p, alGet cp h = some p → p ∉ sc) :
    ∀ e, RemovedBy cp (h :: t) sc e → e ≠ h → RemovedBy cp t sc e := by
  intro e hr
  induction hr with
  | seed y hy => exact fun _ => RemovedBy.seed y hy
  | parentSeed y p hg hp => exact fun _ => RemovedBy.parentSeed y p hg hp
  | parentChain y p hg hp hrp ih =>
    intro _
    rcases List.mem_cons.mp hp with rfl | hpt
    · exact absurd hrp (fun hc => RemovedBy_head_not cp p t sc hhead hs hps hc)
    · exact RemovedBy.parentChain y p hg hpt (ih (by
        intro hph
        subst hph
        exact RemovedBy_head_not cp p t sc hhead hs hps hrp))

theorem RemovedBy_tail_removed (cp : List (Nat × Entity)) (h : Nat) (t : List Nat)
    (sc : List Nat) :
    ∀ e, RemovedBy cp (h :: t) sc e → RemovedBy cp t (setInsert sc h) e := by
  intro e hr
  induction hr with
  | seed y hy => exact RemovedBy.seed y (mem_setInsert_of_mem _ _ _ hy)
  | parentSeed y p hg hp =>
    exact RemovedBy.parentSeed y p hg (mem_setInsert_of_mem _ _ _ hp)
  | parentChain y p hg hp _ ih =>
    rcases List.mem_cons.mp hp with rfl | hpt
    · exact RemovedBy.parentSeed y p hg (mem_setInsert_self _ _)
    · exact RemovedBy.parentChain y p hg hpt ih

theorem swapDetach_preserve_none (ch : List (Nat × List Entity))
    (cp : List (Nat × Entity)) (h : Nat) (x : Nat)
    (hx : alGet ch x = none) : alGet (swapDetach ch cp h) x = none := by
  unfold swapDetach
  split
  · exact hx
  · split
    · exact hx
    · split
      · rename_i a1 p heq1 a2 cs hg a3 pos heq3
        have hpx : x ≠ p := by
          intro he
          rw [he, hg] at hx
          exact Option.noConfusion hx
        rw [alGet_alInsert_ne ch p (swapRemove cs pos) x hpx]
        exact hx
      · exact hx

theorem swapDetach_keysNodup (ch : List (Nat × List Entity))
    (cp : List (Nat × Entity)) (h : Nat)
    (hk : (ch.map Prod.fst).Nodup) : ((swapDetach ch cp h).map Prod.fst).Nodup := by
  unfold swapDetach
  split
  · exact hk
  · split
    · exact hk
    · split
      · rename_i a1 p heq1 a2 cs hg a3 pos heq3
        exact keysNodup_alInsert ch p (swapRemove cs pos) hk
      · exact hk

theorem removalPass_kept_subset (l : List Entity) (st : RState) (x : Nat)
    (hx : x ∈ (removalPass st l).1) : x ∈ l := by
  induction l generalizing st with
  | nil => exact absurd hx (by simp [removalPass])
  | cons h t ih =>
    unfold removalPass at hx
    by_cases hrm : (st.scratch.contains h ||
      (match alGet st.current_parent h with
       | some p => st.scratch.contains p
       | none => false)) = true
    · rw [if_pos hrm] at hx
      exact List.mem_cons_of_mem _ (ih _ hx)
    · rw [if_neg hrm] at hx
      rcases List.mem_cons.mp hx with rfl | hx
      · exact List.mem_cons_self _ _
      · exact List.mem_cons_of_mem _ (ih _ hx)

theorem removalPass_preserve (x : Nat) (l : List Entity) :
    ∀ st : RState, x ∈ st.scratch → alGet st.entities x = none →
      alGet st.children x = none → alGet st.current_parent x = none →
      x ∈ (removalPass st l).2.scratch ∧
        alGet (removalPass st l).2.entities x = none ∧
        alGet (removalPass st l).2.children x = none ∧
        alGet (removalPass st l).2.current_parent x = none := by
  induction l with
  | nil => exact fun st h1 h2 h3 h4 => ⟨h1, h2, h3, h4⟩
  | cons h t ih =>
    intro st h1 h2 h3 h4
    unfold removalPass
    by_cases hrm : (st.scratch.contains h ||
      (match alGet st.current_parent h with
       | some p => st.scratch.contains p
       | none => false)) = true
    · rw [if_pos hrm]
      exact ih _ (mem_setInsert_of_mem _ _ _ h1)
        (alGet_none_alRemove _ _ _ h2)
        (alGet_none_alRemove _ _ _ (swapDetach_preserve_none _ _ _ _ h3))
        (alGet_none_alRemove _ _ _ h4)
    · rw [if_neg hrm]
      exact ih _ h1 h2 h3 h4

theorem removalPass_scratch_nodup (l : List Entity) :
    ∀ st : RState, st.scratch.Nodup → (removalPass st l).2.scratch.Nodup := by
  induction l with
  | nil => exact fun _ h => h
  | cons h t ih =>
    intro st hnd
    unfold removalPass
    by_cases hrm : (st.scratch.contains h ||
      (match alGet st.current_parent h with
       | some p => st.scratch.contains p
       | none => false)) = true
    · rw [if_pos hrm]
      exact ih _ (setInsert_nodup _ _ hnd)
    · rw [if_neg hrm]
      exact ih _ hnd

/-- Main removal-scan lemma: every entity of the scanned list forced out by
the `RemovedBy` closure is dropped from the kept sequence and from the three
maps, and lands in the final scratch set. -/
theorem removalPass_removes (cp₀ : List (Nat × Entity)) (l : List Nat) :
    ∀ st : RState,
      (∀ e ∈ l, alGet st.current_parent e = alGet cp₀ e) →
      l.Nodup →
      parentsBeforeB cp₀ l = true →
      (st.entities.map Prod.fst).Nodup →
      (st.children.map Prod.fst).Nodup →
      (st.current_parent.map Prod.fst).Nodup →
      ∀ e, e ∈ l → RemovedBy cp₀ l st.scratch e →
        e ∉ (removalPass st l).1 ∧ e ∈ (removalPass st l).2.scratch ∧
        alGet (removalPass st l).2.entities e = none ∧
        alGet (removalPass st l).2.children e = none ∧
        alGet (removalPass st l).2.current_parent e = none := by
  induction l with
  | nil => intro st _ _ _ _ _ _ e he _; exact absurd he (by simp)
  | cons h t ih =>
    intro st hcp hnd hpb hkE hkC hkP e he hrb
    have hndt : t.Nodup := (List.nodup_cons.mp hnd).2
    have hhnt : h ∉ t := (List.nodup_cons.mp hnd).1
    have hpb' := hpb
    unfold parentsBeforeB at hpb'
    rw [Bool.and_eq_true] at hpb'
    obtain ⟨hhead, hpbt⟩ := hpb'
    have hcph : alGet st.current_parent h = alGet cp₀ h :=
      hcp h (List.mem_cons_self h t)
    by_cases hrm : (st.scratch.contains h ||
      (match alGet st.current_parent h with
       | some p => st.scratch.contains p
       | none => false)) = true
    · -- h is removed this step
      have hpass : removalPass st (h :: t)
          = removalPass
            { scratch := setInsert st.scratch h
              children := alRemove (swapDetach st.children st.current_parent h) h
              current_parent := alRemove st.current_parent h
              entities := alRemove st.entities h
              kcount := st.kcount
              min_index := if st.kcount < st.min_index then st.kcount
                else st.min_index } t := by
        conv_lhs => unfold removalPass
        rw [if_pos hrm]
      set st' : RState :=
        { scratch := setInsert st.scratch h
          children := alRemove (swapDetach st.children st.current_parent h) h
          current_parent := alRemove st.current_parent h
          entities := alRemove st.entities h
          kcount := st.kcount
          min_index := if st.kcount < st.min_index then st.kcount
            else st.min_index } with hst'
      have hcp' : ∀ e' ∈ t, alGet st'.current_parent e' = alGet cp₀ e' := by
        intro e' he'
        have hne : e' ≠ h := fun hc => hhnt (hc ▸ he')
        rw [hst']
        show alGet (alRemove st.current_parent h) e' = alGet cp₀ e'
        rw [alGet_alRemove_ne st.current_parent h e' hne]
        exact hcp e' (List.mem_cons_of_mem _ he')
      have hkE' : (st'.entities.map Prod.fst).Nodup := keysNodup_alRemove _ _ hkE
      have hkC' : (st'.children.map Prod.fst).Nodup :=
        keysNodup_alRemove _ _ (swapDetach_keysNodup _ _ _ hkC)
      have hkP' : (st'.current_parent.map Prod.fst).Nodup := keysNodup_alRemove _ _ hkP
      rcases List.mem_cons.mp he with rfl | het
      · -- e = h: removed right here; preserved over the rest of the scan
        have h1 : e ∈ st'.scratch := mem_setInsert_self _ _
        have h2 : alGet st'.entities e = none := alGet_alRemove_self _ _ hkE
        have h3 : alGet st'.children e = none :=
          alGet_alRemove_self _ _ (swapDetach_keysNodup _ _ _ hkC)
        have h4 : alGet st'.current_parent e = none := alGet_alRemove_self _ _ hkP
        obtain ⟨p1, p2, p3, p4⟩ := removalPass_preserve e t st' h1 h2 h3 h4
        rw [hpass]
        refine ⟨fun hk => hhnt (removalPass_kept_subset t st' e hk), p1, p2, p3, p4⟩
      · -- e in the tail
        have hrb' : RemovedBy cp₀ t st'.scratch e := by
          rw [hst']
          exact RemovedBy_tail_removed cp₀ h t st.scratch e hrb
        obtain ⟨q1, q2, q3, q4, q5⟩ :=
          ih st' hcp' hndt hpbt hkE' hkC' hkP' e het hrb'
        rw [hpass]
        exact ⟨q1, q2, q3, q4, q5⟩
    · -- h is kept this step
      have hs : h ∉ st.scratch := by
        intro hc
        apply hrm
        rw [(contains_true_iff st.scratch h).mpr hc]
        simp
      have hps : ∀ p, alGet cp₀ h = some p → p ∉ st.scratch := by
        intro p hg hc
        apply hrm
        rw [hcph, hg]
        show (st.scratch.contains h || st.scratch.contains p) = true
        rw [(contains_true_iff st.scratch p).mpr hc]
        simp
      have hpass : removalPass st (h :: t)
          = ((h :: (removalPass { st with kcount := st.kcount + 1 } t).1),
              (removalPass { st with kcount := st.kcount + 1 } t).2) := by
        conv_lhs => unfold removalPass
        rw [if_neg hrm]
      have hehne : e ≠ h := by
        intro hc
        subst hc
        exact RemovedBy_head_not cp₀ e t st.scratch hhead hs hps hrb
      have het : e ∈ t := by
        rcases List.mem_cons.mp he with rfl | het
        · exact absurd rfl hehne
        · exact het
      have hrb' : RemovedBy cp₀ t st.scratch e :=
        RemovedBy_tail_kept cp₀ h t st.scratch hhead hs hps e hrb hehne
      obtain ⟨q1, q2, q3, q4, q5⟩ :=
        ih { st with kcount := st.kcount + 1 }
          (fun e' he' => hcp e' (List.mem_cons_of_mem _ he')) hndt hpbt
          hkE hkC hkP e het hrb'
      rw [hpass]
      refine ⟨?_, q2, q3, q4, q5⟩
      intro hk
      rcases List.mem_cons.mp hk with hc | hk
      · exact hehne hc
      · exact q1 hk

theorem removedScratch_go (s : Hierarchy)
    (hrange : ∀ kv ∈ s.entities, kv.2 < s.sorted.length) (l : List Nat) :
    ∀ acc : List Nat,
      ∃ sc, l.foldlM
          (fun scratch i =>
            match alGet s.entities i with
            | some index =>
              match s.sorted[index]? with
              | some e => some (setInsert scratch e)
              | none => none
            | none => some scratch) acc = some sc ∧
        (∀ x ∈ acc, x ∈ sc) ∧ (acc.Nodup → sc.Nodup) ∧
        (∀ i ∈ l, ∀ idx, alGet s.entities i = some idx →
          ∀ e, s.sorted[idx]? = some e → e ∈ sc) := by
  induction l with
  | nil =>
    intro acc
    exact ⟨acc, rfl, fun x hx => hx, fun h => h, by simp⟩
  | cons i rest ih =>
    intro acc
    cases hg : alGet s.entities i with
    | none =>
      obtain ⟨sc, hfold, hmono, hnd, hlast⟩ := ih acc
      refine ⟨sc, ?_, hmono, hnd, ?_⟩
      · simp only [List.foldlM_cons, hg]
        exact hfold
      · intro i' hi' idx hidx e hse
        rcases List.mem_cons.mp hi' with rfl | hi'
        · rw [hg] at hidx; exact Option.noConfusion hidx
        · exact hlast i' hi' idx hidx e hse
    | some idx =>
      have hlt : idx < s.sorted.length := hrange (i, idx) (mem_of_alGet _ _ _ hg)
      have hse : s.sorted[idx]? = some s.sorted[idx] := List.getElem?_eq_getElem hlt
      obtain ⟨sc, hfold, hmono, hnd, hlast⟩ := ih (setInsert acc s.sorted[idx])
      refine ⟨sc, ?_, ?_, ?_, ?_⟩
      · simp only [List.foldlM_cons, hg, hse]
        exact hfold
      · exact fun x hx => hmono x (mem_setInsert_of_mem _ _ _ hx)
      · exact fun h => hnd (setInsert_nodup _ _ h)
      · intro i' hi' idx' hidx' e hse'
        rcases List.mem_cons.mp hi' with rfl | hi'
        · rw [hg] at hidx'
          obtain rfl := Option.some.inj hidx'
          rw [hse] at hse'
          obtain rfl := Option.some.inj hse'
          exact hmono _ (mem_setInsert_self _ _)
        · exact hlast i' hi' idx' hidx' e hse'

theorem livenessScratch_nodup (alive : Entity → Bool) (ext : List Nat) :
    ∀ sc : List Nat, sc.Nodup → (livenessScratch alive ext sc).Nodup := by
  induction ext with
  | nil => exact fun _ h => h
  | cons x xs ih =>
    intro sc hnd
    unfold livenessScratch
    simp only [List.foldl_cons]
    by_cases hx : alive x
    · simp only [hx, if_true]; exact ih sc hnd
    · simp only [hx, if_false]; exact ih _ (setInsert_nodup _ _ hnd)

theorem reindexFold_preserve_none (sorted : List Entity) (x : Nat)
    (hxs : x ∉ sorted) (idxs : List Nat) :
    ∀ m r, idxs.foldlM
        (fun m i =>
          match sorted[i]? with
          | some e => some (alInsert m e i)
          | none => none) m = some r →
      alGet m x = none → alGet r x = none := by
  induction idxs with
  | nil =>
    intro m r hf hm
    obtain rfl := Option.some.inj hf
    exact hm
  | cons i is ih =>
    intro m r hf hm
    cases hse : sorted[i]? with
    | none =>
      rw [List.foldlM_cons, hse] at hf
      exact Option.noConfusion hf
    | some e =>
      rw [List.foldlM_cons, hse] at hf
      have hne : x ≠ e := fun hc => hxs (hc ▸ List.getElem?_mem hse)
      exact ih _ _ hf (by rw [alGet_alInsert_ne m e i x hne]; exact hm)

theorem reindexRange_preserve_none (m : List (Nat × Nat)) (sorted : List Entity)
    (start stop : Nat) (r : List (Nat × Nat)) (x : Nat)
    (h : reindexRange m sorted start stop = some r) (hm : alGet m x = none)
    (hxs : x ∉ sorted) : alGet r x = none := by
  unfold reindexRange at h
  exact reindexFold_preserve_none sorted x hxs _ m r h hm

theorem parentChain_removedBy (cp : List (Nat × Entity)) (l : List Nat)
    (sc : List Nat) (A : Nat) (hA : A ∈ sc)
    (hdom : ∀ e p, alGet cp e = some p → e ∈ l) :
    ∀ D, ParentChain cp A D → RemovedBy cp l sc D := by
  intro D hchain
  induction hchain with
  | refl => exact RemovedBy.seed A hA
  | step mid e hch hg ih =>
    cases hch with
    | refl => exact RemovedBy.parentSeed e A hg hA
    | step mid2 _ hch2 hg2 =>
      exact RemovedBy.parentChain e mid hg (hdom mid mid2 hg2) ih

theorem posIndexSyncB_range (s : Hierarchy) (h : posIndexSyncB s = true) :
    ∀ kv ∈ s.entities, kv.2 < s.sorted.length := by
  unfold posIndexSyncB at h
  rw [Bool.and_eq_true] at h
  intro kv hkv
  have := List.all_eq_true.mp h.2 kv hkv
  rw [Bool.and_eq_true] at this
  exact of_decide_eq_true this.1

theorem posIndexSyncB_lookup (s : Hierarchy) (h : posIndexSyncB s = true)
    (A : Nat) (hA : A ∈ s.sorted) :
    ∃ i, alGet s.entities A = some i ∧ s.sorted[i]? = some A := by
  unfold posIndexSyncB at h
  rw [Bool.and_eq_true] at h
  obtain ⟨i, hlt, hget⟩ := List.mem_iff_getElem.mp hA
  have hall := List.all_eq_true.mp h.1 i (List.mem_range.mpr hlt)
  rw [List.getD_eq_getElem s.sorted 0 hlt, hget] at hall
  refine ⟨i, ?_, ?_⟩
  · exact (beq_iff_eq).mp hall
  · rw [List.getElem?_eq_getElem hlt, hget]

/-- **C4**: cascading removal.  For a tick whose batch removes the link of a
tracked entity `A` (and inserts or modifies nothing), `maintain` removes `A`
and every entity of `A`'s descendant subtree (the `ParentChain` closure of
the current-parent map) from the sorted sequence, the position index and the
children map, and appends exactly one `Removed` event per removed entity.
The hypotheses are the data-model invariants of the pre-state: a duplicate-
free sequence, a position index in sync, parents-before-children order, the
current-parent domain inside the sequence, and duplicate-free map keys. -/
theorem c4_cascading_removal (s : Hierarchy) (alive : Entity → Bool)
    (parents : Entity → Option Entity) (removedL : List Nat) (A : Entity)
    (hnd : s.sorted.Nodup)
    (hsync : posIndexSyncB s = true)
    (hpb : parentsBeforeB s.current_parent s.sorted = true)
    (hdomB : s.current_parent.all (fun kv => s.sorted.contains kv.1) = true)
    (hkE : (s.entities.map Prod.fst).Nodup)
    (hkC : (s.children.map Prod.fst).Nodup)
    (hkP : (s.current_parent.map Prod.fst).Nodup)
    (hA : A ∈ s.sorted) (hAr : A ∈ removedL) :
    ∃ (s' : Hierarchy) (rem : List Nat),
      maintain s alive parents [] [] removedL = some s' ∧
      rem.Nodup ∧ s'.changed = s.changed ++ rem.map HierarchyEvent.Removed ∧
      ∀ D, ParentChain s.current_parent A D → D ∈ s.sorted →
        D ∉ s'.all ∧ alGet s'.entities D = none ∧ alGet s'.children D = none ∧
        D ∈ rem ∧
        (rem.map HierarchyEvent.Removed).count (HierarchyEvent.Removed D) = 1 := by
  have hrange := posIndexSyncB_range s hsync
  obtain ⟨sc0, hsc0, _, hsc0nodup, hsc0mem⟩ :=
    removedScratch_go s hrange removedL []
  obtain ⟨iA, hiA, hiAs⟩ := posIndexSyncB_lookup s hsync A hA
  have hAsc0 : A ∈ sc0 := hsc0mem A hAr iA hiA A hiAs
  have hAsc1 : A ∈ livenessScratch alive s.external_parents sc0 :=
    mem_livenessScratch_of_mem alive s.external_parents sc0 A hAsc0
  have hne : livenessScratch alive s.external_parents sc0 ≠ [] :=
    List.ne_nil_of_mem hAsc1
  obtain ⟨ents, hreix, hrp⟩ := removalPhase_eq s alive removedL sc0 hsc0 hne
  have hm := maintain_only_removed s alive parents removedL _ hrp
  have hdom : ∀ e p, alGet s.current_parent e = some p → e ∈ s.sorted := by
    intro e p hg
    have := List.all_eq_true.mp hdomB (e, p) (mem_of_alGet _ _ _ hg)
    exact (contains_true_iff _ _).mp this
  have hscnodup : (removalPass (initRState s alive sc0) s.sorted).2.scratch.Nodup :=
    removalPass_scratch_nodup s.sorted (initRState s alive sc0)
      (livenessScratch_nodup alive s.external_parents sc0 (hsc0nodup List.nodup_nil))
  obtain ⟨s', hms, hs1, hs2, hs3, hs4⟩ :
      ∃ s', maintain s alive parents [] [] removedL = some s' ∧
        s'.sorted = (removalPass (initRState s alive sc0) s.sorted).1 ∧
        s'.entities = ents ∧
        s'.children = (removalPass (initRState s alive sc0) s.sorted).2.children ∧
        s'.changed = s.changed ++
          ((removalPass (initRState s alive sc0) s.sorted).2.scratch.map
            HierarchyEvent.Removed) :=
    ⟨_, hm, rfl, rfl, rfl, rfl⟩
  refine ⟨s', (removalPass (initRState s alive sc0) s.sorted).2.scratch, hms,
    hscnodup, hs4, ?_⟩
  intro D hchain hD
  have hrb : RemovedBy s.current_parent s.sorted
      (livenessScratch alive s.external_parents sc0) D :=
    parentChain_removedBy s.current_parent s.sorted _ A hAsc1 hdom D hchain
  obtain ⟨q1, q2, q3, q4, _⟩ :=
    removalPass_removes s.current_parent s.sorted (initRState s alive sc0)
      (fun e _ => rfl) hnd hpb hkE hkC hkP D hD hrb
  refine ⟨?_, ?_, ?_, q2, ?_⟩
  · show D ∉ s'.sorted
    rw [hs1]
    exact q1
  · rw [hs2]
    exact reindexRange_preserve_none _ _ _ _ ents D hreix q3 (fun hc => q1 hc)
  · rw [hs3]
    exact q4
  · exact List.count_eq_one_of_mem
      (List.Nodup.map (fun a b hab => HierarchyEvent.Removed.inj hab) hscnodup)
      (List.mem_map_of_mem HierarchyEvent.Removed q2)

/-- Witness for the C4 theorem: removing the link of entity 1 (parent of 2,
grandparent of 3 via 2) from the three-deep chain removes the whole chain;
the descendant 3 is reached by a two-step parent chain. -/
theorem c4_cascading_removal_witness :
    ∃ (s' : Hierarchy) (rem : List Nat), maintain
        { sorted := [1, 2, 3], entities := [(1, 0), (2, 1), (3, 2)]
          children := [(9, [1]), (1, [2]), (2, [3])]
          current_parent := [(1, 9), (2, 1), (3, 2)], external_parents := [9]
          changed := [], scratch_set := [] }
        (fun _ => true) (fun _ => none) [] [] [1] = some s' ∧
      rem.Nodup ∧ s'.changed = [] ++ rem.map HierarchyEvent.Removed ∧
      ∀ D, ParentChain [(1, 9), (2, 1), (3, 2)] 1 D → D ∈ [1, 2, 3] →
        D ∉ s'.all ∧ alGet s'.entities D = none ∧ alGet s'.children D = none ∧
        D ∈ rem ∧
        (rem.map HierarchyEvent.Removed).count (HierarchyEvent.Removed D) = 1 :=
  c4_cascading_removal
    { sorted := [1, 2, 3], entities := [(1, 0), (2, 1), (3, 2)]
      children := [(9, [1]), (1, [2]), (2, [3])]
      current_parent := [(1, 9), (2, 1), (3, 2)], external_parents := [9]
      changed := [], scratch_set := [] }
    (fun _ => true) (fun _ => none) [1] 1
    (by decide) (by decide) (by decide) (by decide) (by decide) (by decide)
    (by decide) (by decide) (by decide)

/-- **C10**: when an entity `P` of the external-parents set is dead in a
tick, `maintain` appends a `Removed P` event — even though `P` never
appeared in `all()` — drops `P` from the external-parents set, and, in
addition, removes `P`'s entire descendant subtree: every entity whose
parent chain reaches `P` is dropped from `all()`, the position index and
the children map, with exactly one `Removed` event each.  (Stated for a
tick whose three event sets are empty, isolating the liveness check of
phase 1.) -/
theorem c10_dead_external_parent_gets_removed_event (s : Hierarchy)
    (alive : Entity → Bool) (parents : Entity → Option Entity) (P : Entity)
    (hnd : s.sorted.Nodup)
    (hpb : parentsBeforeB s.current_parent s.sorted = true)
    (hdomB : s.current_parent.all (fun kv => s.sorted.contains kv.1) = true)
    (hkE : (s.entities.map Prod.fst).Nodup)
    (hkC : (s.children.map Prod.fst).Nodup)
    (hkP : (s.current_parent.map Prod.fst).Nodup)
    (hP : P ∈ s.external_parents) (hdead : alive P = false) (_hns : P ∉ s.sorted) :
    ∃ (s' : Hierarchy) (rem : List Nat),
      maintain s alive parents [] [] [] = some s' ∧
      HierarchyEvent.Removed P ∈ s'.changed ∧ P ∉ s'.external_parents ∧
      rem.Nodup ∧ s'.changed = s.changed ++ rem.map HierarchyEvent.Removed ∧
      ∀ D, ParentChain s.current_parent P D → D ∈ s.sorted →
        D ∉ s'.all ∧ alGet s'.entities D = none ∧ alGet s'.children D = none ∧
        D ∈ rem ∧
        (rem.map HierarchyEvent.Removed).count (HierarchyEvent.Removed D) = 1 := by
  have hseed : P ∈ livenessScratch alive s.external_parents [] :=
    mem_livenessScratch alive s.external_parents [] P hP hdead
  have hne : livenessScratch alive s.external_parents [] ≠ [] :=
    List.ne_nil_of_mem hseed
  obtain ⟨ents, hreix, hrp⟩ := removalPhase_eq s alive [] [] rfl hne
  have hscr : P ∈ (removalPass (initRState s alive []) s.sorted).2.scratch :=
    removalPass_scratch_mono s.sorted (initRState s alive []) P hseed
  have hm := maintain_only_removed s alive parents [] _ hrp
  have hdom : ∀ e p, alGet s.current_parent e = some p → e ∈ s.sorted := by
    intro e p hg
    have := List.all_eq_true.mp hdomB (e, p) (mem_of_alGet _ _ _ hg)
    exact (contains_true_iff _ _).mp this
  have hscnodup : (removalPass (initRState s alive []) s.sorted).2.scratch.Nodup :=
    removalPass_scratch_nodup s.sorted (initRState s alive [])
      (livenessScratch_nodup alive s.external_parents [] List.nodup_nil)
  refine ⟨_, (removalPass (initRState s alive []) s.sorted).2.scratch, hm, ?_, ?_,
    hscnodup, rfl, ?_⟩
  · show HierarchyEvent.Removed P ∈ (pruneExternal _).changed
    rw [pruneExternal_changed]
    exact List.mem_append_right _ (List.mem_map_of_mem HierarchyEvent.Removed hscr)
  · intro hmem
    have hsub := pruneExternal_external_subset _ P hmem
    exact not_mem_foldl_setRemove _ _ _ hscr hsub
  · intro D hchain hD
    have hrb : RemovedBy s.current_parent s.sorted
        (livenessScratch alive s.external_parents []) D :=
      parentChain_removedBy s.current_parent s.sorted _ P hseed hdom D hchain
    obtain ⟨q1, q2, q3, q4, _⟩ :=
      removalPass_removes s.current_parent s.sorted (initRState s alive [])
        (fun e _ => rfl) hnd hpb hkE hkC hkP D hD hrb
    refine ⟨?_, ?_, ?_, q2, ?_⟩
    · show D ∉ (removalPass (initRState s alive []) s.sorted).1
      exact q1
    · show alGet ents D = none
      exact reindexRange_preserve_none _ _ _ _ ents D hreix q3 (fun hc => q1 hc)
    · show alGet (removalPass (initRState s alive []) s.sorted).2.children D = none
      exact q4
    · exact List.count_eq_one_of_mem
        (List.Nodup.map (fun a b hab => HierarchyEvent.Removed.inj hab) hscnodup)
        (List.mem_map_of_mem HierarchyEvent.Removed q2)

/-- Witness for the C10 theorem: external parent 5 — parent of tracked 7,
grandparent of tracked 8 — dies; `maintain` emits `Removed 5`, drops 5 from
the external set, and removes the whole subtree {7, 8}. -/
theorem c10_dead_external_parent_gets_removed_event_witness :
    ∃ (s' : Hierarchy) (rem : List Nat), maintain
        { sorted := [7, 8], entities := [(7, 0), (8, 1)]
          children := [(5, [7]), (7, [8])]
          current_parent := [(7, 5), (8, 7)], external_parents := [5]
          changed := [], scratch_set := [] }
        (fun e => decide (e ≠ 5)) (fun _ => none) [] [] [] = some s' ∧
      HierarchyEvent.Removed 5 ∈ s'.changed ∧ 5 ∉ s'.external_parents ∧
      rem.Nodup ∧ s'.changed = [] ++ rem.map HierarchyEvent.Removed ∧
      ∀ D, ParentChain [(7, 5), (8, 7)] 5 D → D ∈ [7, 8] →
        D ∉ s'.all ∧ alGet s'.entities D = none ∧ alGet s'.children D = none ∧
        D ∈ rem ∧
        (rem.map HierarchyEvent.Removed).count (HierarchyEvent.Removed D) = 1 :=
  c10_dead_external_parent_gets_removed_event
    { sorted := [7, 8], entities := [(7, 0), (8, 1)]
      children := [(5, [7]), (7, [8])]
      current_parent := [(7, 5), (8, 7)], external_parents := [5]
      changed := [], scratch_set := [] }
    (fun e => decide (e ≠ 5)) (fun _ => none) 5
    (by decide) (by decide) (by decide) (by decide) (by decide) (by decide)
    (by decide) (by decide) (by decide)

/-! ## The subtree-iterator equivalence proof (C8) -/

theorem ChildChain_pos (ch : List (Nat × List Entity)) (root x n : Nat)
    (h : ChildChain ch root x n) : 1 ≤ n := by
  cases h with
  | one c cs hg hm => exact le_refl 1
  | more m c n cs hch hg hm => omega

theorem ChildChain_prepend (ch : List (Nat × List Entity)) (e c x : Nat)
    (cs : List Entity) (hg : alGet ch e = some cs) (hc : c ∈ cs) :
    ∀ n, ChildChain ch c x n → ChildChain ch e x (n + 1) := by
  intro n hch
  induction hch with
  | one c1 cs1 hg1 hm1 =>
    exact ChildChain.more c c1 1 cs1 (ChildChain.one c cs hg hc) hg1 hm1
  | more m c1 n1 cs1 hch1 hg1 hm1 ih =>
    exact ChildChain.more m c1 (n1 + 1) cs1 ih hg1 hm1

theorem ChildChain_front (ch : List (Nat × List Entity)) (root x n : Nat)
    (h : ChildChain ch root x n) :
    ∃ cs, alGet ch root = some cs ∧
      ((x ∈ cs ∧ n = 1) ∨ ∃ c1 ∈ cs, ∃ n', n = n' + 1 ∧ ChildChain ch c1 x n') := by
  induction h with
  | one c cs hg hm => exact ⟨cs, hg, Or.inl ⟨hm, rfl⟩⟩
  | more m c nn cs hch hg hm ih =>
    obtain ⟨cs0, hg0, hcase⟩ := ih
    refine ⟨cs0, hg0, Or.inr ?_⟩
    rcases hcase with ⟨hm0, rfl⟩ | ⟨c1, hc1, n', rfl, hch1⟩
    · exact ⟨m, hm0, 1, rfl, ChildChain.one c cs hg hm⟩
    · exact ⟨c1, hc1, n' + 1, rfl, ChildChain.more m c n' cs hch1 hg hm⟩

theorem addChildren_mono (s : Hierarchy) :
    ∀ (fuel : Nat) (e : Nat) (acc : List Nat) (x : Nat),
      x ∈ acc → x ∈ addChildrenToSet s fuel e acc := by
  intro fuel
  induction fuel with
  | zero => exact fun e acc x hx => hx
  | succ f ih =>
    intro e acc x hx
    unfold addChildrenToSet
    cases alGet s.children e with
    | none => exact hx
    | some cs =>
      clear e
      induction cs generalizing acc with
      | nil => exact hx
      | cons c cs' ihc =>
        simp only [List.foldl_cons]
        exact ihc _ (ih c (setInsert acc c) x (mem_setInsert_of_mem _ _ _ hx))

theorem addChildren_fold_mono (s : Hierarchy) (f : Nat) :
    ∀ (cs : List Entity) (acc : List Nat) (x : Nat), x ∈ acc →
      x ∈ cs.foldl (fun set c => addChildrenToSet s f c (setInsert set c)) acc := by
  intro cs
  induction cs with
  | nil => exact fun acc x hx => hx
  | cons c cs' ih =>
    intro acc x hx
    simp only [List.foldl_cons]
    exact ih _ x (addChildren_mono s f c _ x (mem_setInsert_of_mem _ _ _ hx))

theorem addChildren_fold_reach (s : Hierarchy) (f : Nat) (x : Nat) (c1 : Nat)
    (hx : ∀ acc₀, x ∈ addChildrenToSet s f c1 (setInsert acc₀ c1)) :
    ∀ (cs : List Entity) (acc : List Nat), c1 ∈ cs →
      x ∈ cs.foldl (fun set c => addChildrenToSet s f c (setInsert set c)) acc := by
  intro cs
  induction cs with
  | nil => intro acc hc; simp at hc
  | cons c cs' ih =>
    intro acc hc
    simp only [List.foldl_cons]
    rcases List.mem_cons.mp hc with rfl | hc
    · exact addChildren_fold_mono s f cs' _ x (hx acc)
    · exact ih _ hc

theorem addChildren_complete (s : Hierarchy) :
    ∀ (n fuel e : Nat), ∀ acc x, ChildChain s.children e x n → n ≤ fuel →
      x ∈ addChildrenToSet s fuel e acc := by
  intro n
  induction n with
  | zero => intro fuel e acc x hch hle; exact absurd (ChildChain_pos _ _ _ _ hch) (by omega)
  | succ n ih =>
    intro fuel e acc x hch hle
    obtain ⟨cs, hg, hcase⟩ := ChildChain_front s.children e x (n + 1) hch
    obtain ⟨f, rfl⟩ : ∃ f, fuel = f + 1 := ⟨fuel - 1, by omega⟩
    unfold addChildrenToSet
    rw [hg]
    rcases hcase with ⟨hm, _⟩ | ⟨c1, hc1, n', hn', hch1⟩
    · -- x is a direct child of e
      exact addChildren_fold_reach s f x x
        (fun acc₀ => addChildren_mono s f x (setInsert acc₀ x) x
          (mem_setInsert_self acc₀ x)) cs acc hm
    · -- x is deeper: recurse through c1
      obtain rfl : n' = n := by omega
      exact addChildren_fold_reach s f x c1
        (fun acc₀ => ih f c1 (setInsert acc₀ c1) x hch1 (by omega)) cs acc hc1

theorem addChildren_sound (s : Hierarchy) :
    ∀ (fuel e : Nat), ∀ acc x, x ∈ addChildrenToSet s fuel e acc →
      x ∈ acc ∨ ∃ n, ChildChain s.children e x n := by
  intro fuel
  induction fuel with
  | zero => exact fun e acc x hx => Or.inl hx
  | succ f ih =>
    intro e acc x hx
    unfold addChildrenToSet at hx
    cases hg : alGet s.children e with
    | none => rw [hg] at hx; exact Or.inl hx
    | some cs =>
      rw [hg] at hx
      have inner : ∀ (cs' : List Entity) (acc' : List Nat),
          (∀ c ∈ cs', c ∈ cs) →
          x ∈ cs'.foldl (fun set c => addChildrenToSet s f c (setInsert set c)) acc' →
          x ∈ acc' ∨ ∃ n, ChildChain s.children e x n := by
        intro cs'
        induction cs' with
        | nil => exact fun acc' _ hx' => Or.inl hx'
        | cons c cs'' ihc =>
          intro acc' hsub hx'
          simp only [List.foldl_cons] at hx'
          rcases ihc _ (fun c' hc' => hsub c' (List.mem_cons_of_mem _ hc')) hx' with
            hx'' | hch
          · rcases ih c (setInsert acc' c) x hx'' with hx3 | ⟨n, hch⟩
            · rcases (mem_setInsert_iff acc' c x).mp hx3 with hx4 | rfl
              · exact Or.inl hx4
              · exact Or.inr ⟨1, ChildChain.one x cs hg (hsub x (List.mem_cons_self _ _))⟩
            · exact Or.inr ⟨n + 1,
                ChildChain_prepend s.children e c x cs hg
                  (hsub c (List.mem_cons_self _ _)) n hch⟩
          · exact Or.inr hch
      rcases inner cs acc (fun _ hc => hc) hx with hx' | hch
      · exact Or.inl hx'
      · exact Or.inr hch

theorem ChildChain_idx (s : Hierarchy)
    (hH4 : ∀ p cs c, alGet s.children p = some cs → c ∈ cs →
      ∃ i, alGet s.entities c = some i)
    (hH5 : ∀ p cs c ip ic, alGet s.children p = some cs → c ∈ cs →
      alGet s.entities p = some ip → alGet s.entities c = some ic → ip < ic)
    (root : Nat) :
    ∀ x n, ChildChain s.children root x n →
      ∃ i, alGet s.entities x = some i ∧ n ≤ i + 1 := by
  intro x n hch
  induction hch with
  | one c cs hg hm =>
    obtain ⟨i, hi⟩ := hH4 root cs c hg hm
    exact ⟨i, hi, by omega⟩
  | more m c nn cs hch hg hm ih =>
    obtain ⟨im, him, hnn⟩ := ih
    obtain ⟨ic, hic⟩ := hH4 m cs c hg hm
    have := hH5 m cs c im ic hg hm him hic
    exact ⟨ic, hic, by omega⟩

theorem ChildChain_idx_above (s : Hierarchy)
    (hH4 : ∀ p cs c, alGet s.children p = some cs → c ∈ cs →
      ∃ i, alGet s.entities c = some i)
    (hH5 : ∀ p cs c ip ic, alGet s.children p = some cs → c ∈ cs →
      alGet s.entities p = some ip → alGet s.entities c = some ic → ip < ic)
    (root iroot : Nat) (hroot : alGet s.entities root = some iroot) :
    ∀ x n, ChildChain s.children root x n →
      ∃ i, alGet s.entities x = some i ∧ iroot < i := by
  intro x n hch
  induction hch with
  | one c cs hg hm =>
    obtain ⟨i, hi⟩ := hH4 root cs c hg hm
    exact ⟨i, hi, hH5 root cs c iroot i hg hm hroot hi⟩
  | more m c nn cs hch hg hm ih =>
    obtain ⟨im, him, hlt⟩ := ih
    obtain ⟨ic, hic⟩ := hH4 m cs c hg hm
    have := hH5 m cs c im ic hg hm him hic
    exact ⟨ic, hic, by omega⟩

/-- Equivalence of the fueled `all_children` with the child-chain relation,
under the data-model invariants (children tracked, children strictly after
parents). -/
theorem allChildren_iff_chain (s : Hierarchy)
    (hH3 : ∀ x i, alGet s.entities x = some i → i < s.sorted.length)
    (hH4 : ∀ p cs c, alGet s.children p = some cs → c ∈ cs →
      ∃ i, alGet s.entities c = some i)
    (hH5 : ∀ p cs c ip ic, alGet s.children p = some cs → c ∈ cs →
      alGet s.entities p = some ip → alGet s.entities c = some ic → ip < ic)
    (root : Nat) (x : Nat) :
    x ∈ allChildren s root ↔ ∃ n, ChildChain s.children root x n := by
  constructor
  · intro hx
    rcases addChildren_sound s (s.sorted.length + 1) root [] x hx with hin | hch
    · simp at hin
    · exact hch
  · rintro ⟨n, hch⟩
    obtain ⟨i, hi, hni⟩ := ChildChain_idx s hH4 hH5 root x n hch
    exact addChildren_complete s n (s.sorted.length + 1) root [] x hch
      (by have := hH3 x i hi; omega)

theorem ChildChain_append (ch : List (Nat × List Entity)) (root a d : Nat)
    (n : Nat) (h1 : ChildChain ch root a n) :
    ∀ m, ChildChain ch a d m → ChildChain ch root d (n + m) := by
  intro m h2
  induction h2 with
  | one c cs hg hm => exact ChildChain.more a c n cs h1 hg hm
  | more mm c nn cs hch hg hm ih => exact ChildChain.more mm c (n + nn) cs ih hg hm

theorem Anc_desc (ch : List (Nat × List Entity)) (root a d : Nat)
    (ha : ∃ n, ChildChain ch root a n) (had : Anc ch a d) :
    ∃ n, ChildChain ch root d n := by
  obtain ⟨n, hn⟩ := ha
  rcases had with rfl | ⟨m, hm⟩
  · exact ⟨n, hn⟩
  · exact ⟨n + m, ChildChain_append ch root a d n hn m hm⟩

theorem Anc_step (ch : List (Nat × List Entity)) (a d : Nat)
    (had : Anc ch a d) (hne : a ≠ d) :
    ∃ cs b, alGet ch a = some cs ∧ b ∈ cs ∧ Anc ch b d := by
  rcases had with rfl | ⟨n, hn⟩
  · exact absurd rfl hne
  · obtain ⟨cs, hg, hcase⟩ := ChildChain_front ch a d n hn
    rcases hcase with ⟨hm, _⟩ | ⟨c1, hc1, n', _, hch1⟩
    · exact ⟨cs, d, hg, hm, Or.inl rfl⟩
    · exact ⟨cs, c1, hg, hc1, Or.inr ⟨n', hch1⟩⟩

theorem Anc_idx_le (s : Hierarchy)
    (hH4 : ∀ p cs c, alGet s.children p = some cs → c ∈ cs →
      ∃ i, alGet s.entities c = some i)
    (hH5 : ∀ p cs c ip ic, alGet s.children p = some cs → c ∈ cs →
      alGet s.entities p = some ip → alGet s.entities c = some ic → ip < ic)
    (a d : Nat) (had : Anc s.children a d) (ia id : Nat)
    (hia : alGet s.entities a = some ia) (hid : alGet s.entities d = some id) :
    ia ≤ id := by
  rcases had with rfl | ⟨n, hn⟩
  · rw [hia] at hid
    exact Nat.le_of_eq (Option.some.inj hid)
  · obtain ⟨i, hi, hlt⟩ := ChildChain_idx_above s hH4 hH5 a ia hia d n hn
    rw [hi] at hid
    obtain rfl := Option.some.inj hid
    omega

/-- What one `processEntity` call does: the position does not move, the end
bound and the discovered set only grow, every added element is a child of
the processed entity, and every child of the processed entity is added with
its position under the new end bound. -/
theorem processEntity_spec (h : Hierarchy) (it : SubHierarchyIterator)
    (child : Entity) :
    (processEntity h it child).current_index = it.current_index ∧
    it.end_index ≤ (processEntity h it child).end_index ∧
    (∀ x ∈ it.entities, x ∈ (processEntity h it child).entities) ∧
    (∀ x ∈ (processEntity h it child).entities,
      x ∈ it.entities ∨ ∃ cs, alGet h.children child = some cs ∧ x ∈ cs) ∧
    (∀ cs c, alGet h.children child = some cs → c ∈ cs →
      c ∈ (processEntity h it child).entities ∧
      ∀ i, alGet h.entities c = some i → i ≤ (processEntity h it child).end_index) := by
  unfold processEntity
  cases hg : alGet h.children child with
  | none =>
    refine ⟨rfl, le_refl _, fun x hx => hx, fun x hx => Or.inl hx, ?_⟩
    intro cs c hcs
    exact Option.noConfusion hcs
  | some cs0 =>
    -- characterize the fold
    have main : ∀ (cs : List Entity) (it0 : SubHierarchyIterator),
        (cs.foldl (fun it c =>
          { it with
            entities := setInsert it.entities c
            end_index :=
              match alGet h.entities c with
              | some index => if index > it.end_index then index else it.end_index
              | none => it.end_index }) it0).current_index = it0.current_index ∧
        it0.end_index ≤ (cs.foldl (fun it c =>
          { it with
            entities := setInsert it.entities c
            end_index :=
              match alGet h.entities c with
              | some index => if index > it.end_index then index else it.end_index
              | none => it.end_index }) it0).end_index ∧
        (∀ x ∈ it0.entities, x ∈ (cs.foldl (fun it c =>
          { it with
            entities := setInsert it.entities c
            end_index :=
              match alGet h.entities c with
              | some index => if index > it.end_index then index else it.end_index
              | none => it.end_index }) it0).entities) ∧
        (∀ x ∈ (cs.foldl (fun it c =>
          { it with
            entities := setInsert it.entities c
            end_index :=
              match alGet h.entities c with
              | some index => if index > it.end_index then index else it.end_index
              | none => it.end_index }) it0).entities, x ∈ it0.entities ∨ x ∈ cs) ∧
        (∀ c ∈ cs, c ∈ (cs.foldl (fun it c =>
          { it with
            entities := setInsert it.entities c
            end_index :=
              match alGet h.entities c with
              | some index => if index > it.end_index then index else it.end_index
              | none => it.end_index }) it0).entities ∧
          ∀ i, alGet h.entities c = some i → i ≤ (cs.foldl (fun it c =>
          { it with
            entities := setInsert it.entities c
            end_index :=
              match alGet h.entities c with
              | some index => if index > it.end_index then index else it.end_index
              | none => it.end_index }) it0).end_index) := by
      intro cs
      induction cs with
      | nil =>
        intro it0
        exact ⟨rfl, le_refl _, fun x hx => hx, fun x hx => Or.inl hx, by simp⟩
      | cons c cs' ih =>
        intro it0
        simp only [List.foldl_cons]
        set it1 : SubHierarchyIterator :=
          { it0 with
            entities := setInsert it0.entities c
            end_index :=
              match alGet h.entities c with
              | some index => if index > it0.end_index then index else it0.end_index
              | none => it0.end_index } with hit1
        obtain ⟨p1, p2, p3, p4, p5⟩ := ih it1
        have hend01 : it0.end_index ≤ it1.end_index := by
          rw [hit1]
          cases hge : alGet h.entities c with
          | none => exact le_refl _
          | some index =>
            simp only
            split <;> omega
        refine ⟨p1, le_trans hend01 p2, ?_, ?_, ?_⟩
        · intro x hx
          exact p3 x (mem_setInsert_of_mem _ _ _ hx)
        · intro x hx
          rcases p4 x hx with hx1 | hx1
          · rcases (mem_setInsert_iff it0.entities c x).mp hx1 with hx2 | rfl
            · exact Or.inl hx2
            · exact Or.inr (List.mem_cons_self _ _)
          · exact Or.inr (List.mem_cons_of_mem _ hx1)
        · intro c' hc'
          rcases List.mem_cons.mp hc' with rfl | hc'
          · refine ⟨p3 c' (mem_setInsert_self _ _), ?_⟩
            intro i hi
            refine le_trans ?_ p2
            rw [hit1]
            simp only [hi]
            split <;> omega
          · exact p5 c' hc'
    obtain ⟨p1, p2, p3, p4, p5⟩ := main cs0 it
    refine ⟨p1, p2, p3, ?_, ?_⟩
    · intro x hx
      rcases p4 x hx with hx1 | hx1
      · exact Or.inl hx1
      · exact Or.inr ⟨cs0, rfl, hx1⟩
    · intro cs c hcs hc
      obtain rfl := Option.some.inj hcs
      exact p5 c hc

/-- What the advance loop of `next` does: it stops at the first position
after the current one that is out of bounds (first case) or holds an already
discovered entity, which it then processes (second case); every skipped
position is in bounds and holds an undiscovered entity. -/
theorem nextLoop_spec (h : Hierarchy) (it : SubHierarchyIterator) :
    ∃ c', it.current_index < c' ∧
      (∀ j, it.current_index < j → j < c' →
        j ≤ it.end_index ∧ j < h.sorted.length ∧ h.sorted.getD j 0 ∉ it.entities) ∧
      (((it.end_index < c' ∨ h.sorted.length ≤ c') ∧
          nextLoop h it = { it with current_index := c' }) ∨
        (c' ≤ it.end_index ∧ c' < h.sorted.length ∧
          h.sorted.getD c' 0 ∈ it.entities ∧
          nextLoop h it = processEntity h { it with current_index := c' }
            (h.sorted.getD c' 0))) := by
  generalize hk : it.end_index + 1 - it.current_index = k
  induction k generalizing it with
  | zero =>
    refine ⟨it.current_index + 1, by omega, by omega, Or.inl ⟨by omega, ?_⟩⟩
    unfold nextLoop
    rw [if_pos (by omega : it.current_index + 1 > it.end_index ∨
      it.current_index + 1 ≥ h.sorted.length)]
  | succ k ih =>
    by_cases hb : it.current_index + 1 > it.end_index ∨
        it.current_index + 1 ≥ h.sorted.length
    · refine ⟨it.current_index + 1, by omega, by omega, Or.inl ⟨?_, ?_⟩⟩
      · rcases hb with hb | hb
        · exact Or.inl hb
        · exact Or.inr hb
      · unfold nextLoop
        rw [if_pos hb]
    · by_cases hc : it.entities.contains (h.sorted.getD (it.current_index + 1) 0)
      · refine ⟨it.current_index + 1, by omega, by omega,
          Or.inr ⟨by omega, by omega, (contains_true_iff _ _).mp hc, ?_⟩⟩
        unfold nextLoop
        rw [if_neg hb, if_pos hc]
      · obtain ⟨c', hgt, hskip, hcase⟩ :=
          ih { it with current_index := it.current_index + 1 } (by simp; omega)
        refine ⟨c', by simp at hgt; omega, ?_, ?_⟩
        · intro j hj1 hj2
          rcases Nat.lt_or_ge it.current_index.succ j with hj3 | hj3
          · have := hskip j (by simpa using hj3) hj2
            simpa using this
          · have hj4 : j = it.current_index + 1 := by omega
            subst hj4
            refine ⟨by omega, by omega, ?_⟩
            intro hmem
            exact hc ((contains_true_iff _ _).mpr hmem)
        · have hstep : nextLoop h it
              = nextLoop h { it with current_index := it.current_index + 1 } := by
            conv_lhs => unfold nextLoop
            rw [if_neg hb, if_neg hc]
          rcases hcase with ⟨hb', heq⟩ | ⟨h1, h2, h3, heq⟩
          · exact Or.inl ⟨by simpa using hb', by rw [hstep, heq]⟩
          · exact Or.inr ⟨by simpa using h1, h2, by simpa using h3,
              by rw [hstep, heq]⟩

theorem filter_drop_congr (P : Nat → Bool) (l : List Nat) :
    ∀ (k a b : Nat), b ≤ a + k → a ≤ b →
      (∀ j, a ≤ j → j < b → j < l.length → P (l.getD j 0) = false) →
      (l.drop a).filter P = (l.drop b).filter P := by
  intro k
  induction k with
  | zero =>
    intro a b h1 h2 _
    obtain rfl : a = b := by omega
    rfl
  | succ k ih =>
    intro a b h1 h2 hP
    by_cases hab : a = b
    · subst hab; rfl
    · have hlt : a < b := by omega
      by_cases hlen : a < l.length
      · rw [List.drop_eq_getElem_cons hlen]
        rw [List.filter_cons]
        have hPa : P l[a] = false := by
          have := hP a (le_refl a) hlt hlen
          rwa [List.getD_eq_getElem l 0 hlen] at this
        rw [hPa]
        simp only [Bool.false_eq_true, if_false]
        exact ih (a + 1) b (by omega) (by omega)
          (fun j hj1 hj2 hj3 => hP j (by omega) hj2 hj3)
      · rw [List.drop_eq_nil_of_le (by omega), List.drop_eq_nil_of_le (by omega)]

/-- One `next` advance preserves the scan invariant, moves strictly forward,
and every skipped position holds a non-descendant. -/
theorem scan_advance (s : Hierarchy) (root : Nat)
    (hH2 : ∀ i, i < s.sorted.length → alGet s.entities (s.sorted.getD i 0) = some i)
    (hH3 : ∀ x i, alGet s.entities x = some i →
      i < s.sorted.length ∧ s.sorted.getD i 0 = x)
    (hH4 : ∀ p cs c, alGet s.children p = some cs → c ∈ cs →
      ∃ i, alGet s.entities c = some i)
    (hH5 : ∀ p cs c ip ic, alGet s.children p = some cs → c ∈ cs →
      alGet s.entities p = some ip → alGet s.entities c = some ic → ip < ic)
    (it : SubHierarchyIterator) (hinv : ScanInv s root it)
    (hc1 : it.current_index ≤ it.end_index)
    (hc2 : it.current_index < s.sorted.length) :
    ScanInv s root (nextLoop s it) ∧
    it.current_index < (nextLoop s it).current_index ∧
    (∀ j, it.current_index < j → j < (nextLoop s it).current_index →
      j < s.sorted.length →
      ¬ ∃ n, ChildChain s.children root (s.sorted.getD j 0) n) := by
  obtain ⟨c', hgt, hskip, hcase⟩ := nextLoop_spec s it
  -- the key witness-upgrade argument
  have key : ∀ d n, ChildChain s.children root d n → ∀ id,
      alGet s.entities d = some id → it.current_index < id →
      ∃ b ib, b ∈ it.entities ∧ alGet s.entities b = some ib ∧
        Anc s.children b d ∧ c' ≤ ib ∧ ib ≤ id := by
    intro d n hch id hid hcid
    obtain ⟨a, ia, haE, haI, hcia, hiaid, hanc⟩ :=
      hinv.witness d n hch id hid (by omega)
    rcases Nat.lt_or_ge ia c' with hia' | hia'
    · rcases Nat.lt_or_ge it.current_index ia with hgtc | hlec
      · -- a sits in the skipped region: impossible
        obtain ⟨_, _, hnot⟩ := hskip ia hgtc hia'
        rw [(hH3 a ia haI).2] at hnot
        exact absurd haE hnot
      · -- ia = current: a is the current element; step down its chain
        have hiac : ia = it.current_index := by omega
        have hae : s.sorted.getD it.current_index 0 = a := by
          rw [← hiac]
          exact (hH3 a ia haI).2
        have hand : a ≠ d := by
          intro hc
          subst hc
          rw [haI] at hid
          obtain := Option.some.inj hid
          omega
        obtain ⟨cs, b, hgcs, hbcs, hbanc⟩ := Anc_step s.children a d hanc hand
        have hbE : b ∈ it.entities := by
          refine hinv.curProc hc1 hc2 cs b ?_ hbcs
          rw [hae]
          exact hgcs
        obtain ⟨ib, hib⟩ := hH4 a cs b hgcs hbcs
        have hlt : ia < ib := hH5 a cs b ia ib hgcs hbcs haI hib
        have hible : ib ≤ id := Anc_idx_le s hH4 hH5 b d hbanc ib id hib hid
        rcases Nat.lt_or_ge ib c' with hib' | hib'
        · obtain ⟨_, _, hnot⟩ := hskip ib (by omega) hib'
          rw [(hH3 b ib hib).2] at hnot
          exact absurd hbE hnot
        · exact ⟨b, ib, hbE, hib, hbanc, hib', hible⟩
    · exact ⟨a, ia, haE, haI, hanc, hia', hiaid⟩
  have hskipdesc : ∀ j, it.current_index < j → j < c' → j < s.sorted.length →
      ¬ ∃ n, ChildChain s.children root (s.sorted.getD j 0) n := by
    rintro j hj1 hj2 hj3 ⟨n, hch⟩
    have hidx := hH2 j hj3
    obtain ⟨b, ib, _, _, _, hge, hle⟩ := key _ n hch j hidx hj1
    omega
  rcases hcase with ⟨hb, heq⟩ | ⟨hb1, hb2, hb3, heq⟩
  · -- bounds-exit case: only the position moves
    rw [heq]
    refine ⟨⟨hinv.entSub, hinv.entEnd, ?_, ?_, ?_⟩, by simpa using hgt, ?_⟩
    · intro h1 h2
      simp only at h1 h2
      rcases hb with hb | hb <;> omega
    · intro h1 h2
      simp only at h1 h2
      rcases hb with hb | hb <;> omega
    · intro d n hch id hid hcid
      simp only at hcid ⊢
      obtain ⟨b, ib, hbE, hib, hbanc, hge, hle⟩ := key d n hch id hid (by omega)
      exact ⟨b, ib, hbE, hib, hge, hle, hbanc⟩
    · intro j h1 h2 h3
      simp only at h2
      exact hskipdesc j h1 h2 h3
  · -- found case: the discovered entity is processed
    rw [heq]
    obtain ⟨p1, p2, p3, p4, p5⟩ :=
      processEntity_spec s { it with current_index := c' } (s.sorted.getD c' 0)
    have hcur : (processEntity s { it with current_index := c' }
        (s.sorted.getD c' 0)).current_index = c' := p1
    have he'E : s.sorted.getD c' 0 ∈ it.entities := hb3
    obtain ⟨ne', hche'⟩ := hinv.entSub _ he'E
    refine ⟨⟨?_, ?_, ?_, ?_, ?_⟩, ?_, ?_⟩
    · -- entSub
      intro x hx
      rcases p4 x hx with hx1 | ⟨cs, hgcs, hxcs⟩
      · exact hinv.entSub x hx1
      · exact ⟨ne' + 1, ChildChain.more _ x ne' cs hche' hgcs hxcs⟩
    · -- entEnd
      intro x hx i hi
      rcases p4 x hx with hx1 | ⟨cs, hgcs, hxcs⟩
      · exact le_trans (hinv.entEnd x hx1 i hi) (by simpa using p2)
      · exact (p5 cs x hgcs hxcs).2 i hi
    · -- curMem
      intro _ _
      rw [hcur]
      exact p3 _ he'E
    · -- curProc
      intro _ _ cs c hgcs hc
      rw [hcur] at hgcs
      exact (p5 cs c hgcs hc).1
    · -- witness
      intro d n hch id hid hcid
      rw [hcur] at hcid
      obtain ⟨b, ib, hbE, hib, hbanc, hge, hle⟩ := key d n hch id hid (by omega)
      exact ⟨b, ib, p3 b hbE, hib, by rw [hcur]; omega, hle, hbanc⟩
    · rw [hcur]; omega
    · intro j h1 h2 h3
      rw [hcur] at h2
      exact hskipdesc j h1 h2 h3

/-- Under the scan invariant and with enough fuel, draining the iterator
yields exactly the descendants of `root`, in sequence order, starting from
the current position. -/
theorem drain_eq (s : Hierarchy) (root : Nat)
    (hH2 : ∀ i, i < s.sorted.length → alGet s.entities (s.sorted.getD i 0) = some i)
    (hH3 : ∀ x i, alGet s.entities x = some i →
      i < s.sorted.length ∧ s.sorted.getD i 0 = x)
    (hH4 : ∀ p cs c, alGet s.children p = some cs → c ∈ cs →
      ∃ i, alGet s.entities c = some i)
    (hH5 : ∀ p cs c ip ic, alGet s.children p = some cs → c ∈ cs →
      alGet s.entities p = some ip → alGet s.entities c = some ic → ip < ic) :
    ∀ fuel it, ScanInv s root it →
      s.sorted.length + 1 ≤ fuel + it.current_index →
      drain s fuel it = (s.sorted.drop it.current_index).filter
        (fun x => decide (x ∈ allChildren s root)) := by
  intro fuel
  induction fuel with
  | zero =>
    intro it _ hfuel
    rw [List.drop_eq_nil_of_le (by omega)]
    rfl
  | succ fuel ih =>
    intro it hinv hfuel
    by_cases hnone : it.current_index ≥ s.sorted.length ∨
        it.current_index > it.end_index
    · have hdrain : drain s (fuel + 1) it = [] := by
        unfold drain SubHierarchyIterator.next
        rw [if_pos hnone]
      rw [hdrain]
      rcases Nat.lt_or_ge it.current_index s.sorted.length with hlt | hge
      · have hend : it.end_index < it.current_index := by
          rcases hnone with hb | hb
          · omega
          · exact hb
        have hnoP : ∀ j, it.current_index ≤ j → j < s.sorted.length →
            decide (s.sorted.getD j 0 ∈ allChildren s root) = false := by
          intro j hj1 hj2
          refine decide_eq_false ?_
          intro hmem
          obtain ⟨n, hch⟩ := (allChildren_iff_chain s
            (fun x i hh => (hH3 x i hh).1) hH4 hH5 root _).mp hmem
          obtain ⟨a, ia, haE, haI, hc1, hc2, _⟩ :=
            hinv.witness _ n hch j (hH2 j hj2) hj1
          have := hinv.entEnd a haE ia haI
          omega
        rw [filter_drop_congr _ s.sorted s.sorted.length it.current_index
          s.sorted.length (by omega) (by omega)
          (fun j h1 h2 _ => hnoP j h1 h2), List.drop_length]
        rfl
      · rw [List.drop_eq_nil_of_le hge]
        rfl
    · have hlen : it.current_index < s.sorted.length := by
        rcases not_or.mp hnone with ⟨h1, _⟩
        omega
      have hend : it.current_index ≤ it.end_index := by
        rcases not_or.mp hnone with ⟨_, h2⟩
        omega
      obtain ⟨hinv', hgt, hskipd⟩ :=
        scan_advance s root hH2 hH3 hH4 hH5 it hinv hend hlen
      have hdrain : drain s (fuel + 1) it
          = s.sorted.getD it.current_index 0 :: drain s fuel (nextLoop s it) := by
        conv_lhs => unfold drain
        unfold SubHierarchyIterator.next
        rw [if_neg hnone]
      rw [hdrain, List.drop_eq_getElem_cons hlen, List.filter_cons]
      have hmemE : s.sorted.getD it.current_index 0 ∈ it.entities :=
        hinv.curMem hend hlen
      have hPe : decide (s.sorted[it.current_index] ∈ allChildren s root)
          = true := by
        refine decide_eq_true ?_
        have hall : s.sorted.getD it.current_index 0 ∈ allChildren s root :=
          (allChildren_iff_chain s (fun x i hh => (hH3 x i hh).1) hH4 hH5
            root _).mpr (hinv.entSub _ hmemE)
        rwa [List.getD_eq_getElem s.sorted 0 hlen] at hall
      simp only [hPe, if_true]
      have hih := ih (nextLoop s it) hinv' (by omega)
      rw [hih]
      have hshift : (s.sorted.drop (it.current_index + 1)).filter
            (fun x => decide (x ∈ allChildren s root))
          = (s.sorted.drop (nextLoop s it).current_index).filter
            (fun x => decide (x ∈ allChildren s root)) := by
        refine filter_drop_congr _ s.sorted
          ((nextLoop s it).current_index - (it.current_index + 1))
          (it.current_index + 1) (nextLoop s it).current_index
          (by omega) (by omega) ?_
        intro j hj1 hj2 hj3
        refine decide_eq_false ?_
        intro hmem
        exact hskipd j (by omega) hj2 hj3
          ((allChildren_iff_chain s (fun x i hh => (hH3 x i hh).1)
            hH4 hH5 root _).mp hmem)
      rw [← hshift, List.getD_eq_getElem s.sorted 0 hlen]

/-- The freshly built iterator satisfies the scan invariant, and every
descendant of `root` sits at or after the start position. -/
theorem mk0_scanInv (s : Hierarchy) (root : Nat)
    (hH3 : ∀ x i, alGet s.entities x = some i →
      i < s.sorted.length ∧ s.sorted.getD i 0 = x)
    (hH4 : ∀ p cs c, alGet s.children p = some cs → c ∈ cs →
      ∃ i, alGet s.entities c = some i)
    (hH5 : ∀ p cs c ip ic, alGet s.children p = some cs → c ∈ cs →
      alGet s.entities p = some ip → alGet s.entities c = some ic → ip < ic) :
    ScanInv s root (SubHierarchyIterator.mk0 s root) ∧
    (∀ d n, ChildChain s.children root d n → ∀ id,
      alGet s.entities d = some id →
      (SubHierarchyIterator.mk0 s root).current_index ≤ id) := by
  rcases hch : alGet s.children root with _ | ⟨_ | ⟨c0, cs'⟩⟩
  · -- no children entry: the iterator starts past the end and holds nothing
    have hmk : SubHierarchyIterator.mk0 s root
        = { current_index := s.sorted.length, end_index := 0, entities := [] } := by
      unfold SubHierarchyIterator.mk0 processEntity
      rw [hch]
      simp
    rw [hmk]
    have hnodesc : ∀ d n, ChildChain s.children root d n → False := by
      intro d n hchn
      obtain ⟨cs0, hg, _⟩ := ChildChain_front s.children root d n hchn
      rw [hch] at hg
      exact Option.noConfusion hg
    refine ⟨⟨?_, ?_, ?_, ?_, ?_⟩, ?_⟩
    · intro x hx
      exact absurd hx (List.not_mem_nil x)
    · intro x hx
      exact absurd hx (List.not_mem_nil x)
    · intro _ h2
      exact absurd h2 (Nat.lt_irrefl _)
    · intro _ h2
      exact absurd h2 (Nat.lt_irrefl _)
    · intro d n hchn
      exact absurd hchn (fun hc => hnodesc d n hc)
    · intro d n hchn
      exact absurd hchn (fun hc => hnodesc d n hc)
  · -- empty children list: same degenerate iterator
    have hmk : SubHierarchyIterator.mk0 s root
        = { current_index := s.sorted.length, end_index := 0, entities := [] } := by
      unfold SubHierarchyIterator.mk0 processEntity
      rw [hch]
      simp [listMin?]
    rw [hmk]
    have hnodesc : ∀ d n, ChildChain s.children root d n → False := by
      intro d n hchn
      obtain ⟨cs0, hg, hcase⟩ := ChildChain_front s.children root d n hchn
      rw [hch] at hg
      obtain rfl := Option.some.inj hg
      rcases hcase with ⟨hm, _⟩ | ⟨c1, hc1, _⟩
      · exact absurd hm (List.not_mem_nil d)
      · exact absurd hc1 (List.not_mem_nil c1)
    refine ⟨⟨?_, ?_, ?_, ?_, ?_⟩, ?_⟩
    · intro x hx
      exact absurd hx (List.not_mem_nil x)
    · intro x hx
      exact absurd hx (List.not_mem_nil x)
    · intro _ h2
      exact absurd h2 (Nat.lt_irrefl _)
    · intro _ h2
      exact absurd h2 (Nat.lt_irrefl _)
    · intro d n hchn
      exact absurd hchn (fun hc => hnodesc d n hc)
    · intro d n hchn
      exact absurd hchn (fun hc => hnodesc d n hc)
  · -- nonempty children list: start at the minimum child position
    obtain ⟨m, hmin_eq, hm_mem, hm_le⟩ := listMin?_cons_spec
      ((alGet s.entities c0).getD s.sorted.length)
      (cs'.map (fun c => (alGet s.entities c).getD s.sorted.length))
    have hmin_all : ∀ c ∈ c0 :: cs', ∀ i, alGet s.entities c = some i → m ≤ i := by
      intro c hc i hi
      have : (alGet s.entities c).getD s.sorted.length
          ∈ (alGet s.entities c0).getD s.sorted.length
            :: cs'.map (fun c => (alGet s.entities c).getD s.sorted.length) := by
        rcases List.mem_cons.mp hc with rfl | hc
        · exact List.mem_cons_self _ _
        · exact List.mem_cons_of_mem _ (List.mem_map_of_mem _ hc)
      have := hm_le _ this
      rw [hi] at this
      exact this
    obtain ⟨cstar, hcstar_mem, hcstar_val⟩ : ∃ c ∈ c0 :: cs',
        (alGet s.entities c).getD s.sorted.length = m := by
      rcases List.mem_cons.mp hm_mem with hm0 | hm0
      · exact ⟨c0, List.mem_cons_self _ _, hm0.symm⟩
      · obtain ⟨c, hc, hcv⟩ := List.mem_map.mp hm0
        exact ⟨c, List.mem_cons_of_mem _ hc, hcv⟩
    obtain ⟨istar, histar⟩ := hH4 root (c0 :: cs') cstar hch hcstar_mem
    have him : istar = m := by
      rw [histar] at hcstar_val
      exact hcstar_val
    subst him
    obtain ⟨hmlt, hsort_m⟩ := hH3 cstar istar histar
    have hmk : SubHierarchyIterator.mk0 s root
        = processEntity s
            (processEntity s
              { current_index := istar, end_index := 0, entities := [] } root)
            (s.sorted.getD istar 0) := by
      unfold SubHierarchyIterator.mk0
      rw [hch]
      simp only [List.map_cons, hmin_eq]
      rw [if_pos (by omega : istar ≠ s.sorted.length)]
    obtain ⟨q1, q2, q3, q4, q5⟩ := processEntity_spec s
      { current_index := istar, end_index := 0, entities := [] } root
    obtain ⟨r1, r2, r3, r4, r5⟩ := processEntity_spec s
      (processEntity s { current_index := istar, end_index := 0, entities := [] } root)
      (s.sorted.getD istar 0)
    have hcur : (SubHierarchyIterator.mk0 s root).current_index = istar := by
      rw [hmk, r1, q1]
    have hentE1 : ∀ x, x ∈ (processEntity s
        { current_index := istar, end_index := 0, entities := [] } root).entities →
        x ∈ c0 :: cs' := by
      intro x hx
      rcases q4 x hx with hx1 | ⟨cs1, hg1, hx1⟩
      · exact absurd hx1 (List.not_mem_nil x)
      · rw [hch] at hg1
        obtain rfl := Option.some.inj hg1
        exact hx1
    have hlow : ∀ d n, ChildChain s.children root d n → ∀ id,
        alGet s.entities d = some id → istar ≤ id := by
      intro d n hchn id hid
      obtain ⟨cs0, hg, hcase⟩ := ChildChain_front s.children root d n hchn
      rw [hch] at hg
      obtain rfl := Option.some.inj hg
      rcases hcase with ⟨hmd, _⟩ | ⟨c1, hc1, n', _, hch1⟩
      · exact hmin_all d hmd id hid
      · obtain ⟨i1, hi1⟩ := hH4 root (c0 :: cs') c1 hch hc1
        have h1 := hmin_all c1 hc1 i1 hi1
        have h2 := Anc_idx_le s hH4 hH5 c1 d (Or.inr ⟨n', hch1⟩) i1 id hi1 hid
        omega
    refine ⟨⟨?_, ?_, ?_, ?_, ?_⟩, ?_⟩
    · -- entSub
      intro x hx
      rw [hmk] at hx
      rcases r4 x hx with hx1 | ⟨cs1, hg1, hx1⟩
      · exact ⟨1, ChildChain.one x (c0 :: cs') hch (hentE1 x hx1)⟩
      · rw [hsort_m] at hg1
        exact ⟨2, ChildChain.more cstar x 1 cs1
          (ChildChain.one cstar (c0 :: cs') hch hcstar_mem) hg1 hx1⟩
    · -- entEnd
      intro x hx i hi
      rw [hmk] at hx ⊢
      rcases r4 x hx with hx1 | ⟨cs1, hg1, hx1⟩
      · have := (q5 (c0 :: cs') x hch (hentE1 x hx1)).2 i hi
        omega
      · exact (r5 cs1 x hg1 hx1).2 i hi
    · -- curMem
      intro _ _
      rw [hcur, hsort_m, hmk]
      exact r3 cstar (q5 (c0 :: cs') cstar hch hcstar_mem).1
    · -- curProc
      intro _ _ cs1 c hg1 hc1
      rw [hcur, hsort_m] at hg1
      rw [hmk]
      refine (r5 cs1 c ?_ hc1).1
      rw [hsort_m]
      exact hg1
    · -- witness
      intro d n hchn id hid hcid
      obtain ⟨cs0, hg, hcase⟩ := ChildChain_front s.children root d n hchn
      rw [hch] at hg
      obtain rfl := Option.some.inj hg
      rcases hcase with ⟨hmd, _⟩ | ⟨c1, hc1, n', _, hch1⟩
      · refine ⟨d, id, ?_, hid, ?_, le_refl id, Or.inl rfl⟩
        · rw [hmk]
          exact r3 d (q5 (c0 :: cs') d hch hmd).1
        · rw [hcur]
          exact hmin_all d hmd id hid
      · obtain ⟨i1, hi1⟩ := hH4 root (c0 :: cs') c1 hch hc1
        refine ⟨c1, i1, ?_, hi1, ?_, ?_, Or.inr ⟨n', hch1⟩⟩
        · rw [hmk]
          exact r3 c1 (q5 (c0 :: cs') c1 hch hc1).1
        · rw [hcur]
          exact hmin_all c1 hc1 i1 hi1
        · exact Anc_idx_le s hH4 hH5 c1 d (Or.inr ⟨n', hch1⟩) i1 id hi1 hid
    · -- global lower bound
      intro d n hchn id hid
      rw [hcur]
      exact hlow d n hchn id hid

theorem posIndexSyncB_H2 (s : Hierarchy) (h : posIndexSyncB s = true) :
    ∀ i, i < s.sorted.length → alGet s.entities (s.sorted.getD i 0) = some i := by
  unfold posIndexSyncB at h
  rw [Bool.and_eq_true] at h
  intro i hi
  have := List.all_eq_true.mp h.1 i (List.mem_range.mpr hi)
  exact (beq_iff_eq).mp this

theorem posIndexSyncB_H3 (s : Hierarchy) (h : posIndexSyncB s = true) :
    ∀ x i, alGet s.entities x = some i →
      i < s.sorted.length ∧ s.sorted.getD i 0 = x := by
  unfold posIndexSyncB at h
  rw [Bool.and_eq_true] at h
  intro x i hx
  have hkv := mem_of_alGet s.entities x i hx
  have := List.all_eq_true.mp h.2 (x, i) hkv
  rw [Bool.and_eq_true] at this
  exact ⟨of_decide_eq_true this.1, (beq_iff_eq).mp this.2⟩

theorem childrenSyncB_H4 (s : Hierarchy) (h : childrenSyncB s = true) :
    ∀ p cs c, alGet s.children p = some cs → c ∈ cs →
      ∃ i, alGet s.entities c = some i := by
  intro p cs c hg hc
  have hkv := mem_of_alGet s.children p cs hg
  have h1 := List.all_eq_true.mp h (p, cs) hkv
  have h2 := List.all_eq_true.mp h1 c hc
  cases hic : alGet s.entities c with
  | none =>
    rw [hic] at h2
    simp at h2
  | some ic => exact ⟨ic, rfl⟩

theorem childrenSyncB_H5 (s : Hierarchy) (h : childrenSyncB s = true) :
    ∀ p cs c ip ic, alGet s.children p = some cs → c ∈ cs →
      alGet s.entities p = some ip → alGet s.entities c = some ic → ip < ic := by
  intro p cs c ip ic hg hc hip hic
  have hkv := mem_of_alGet s.children p cs hg
  have h1 := List.all_eq_true.mp h (p, cs) hkv
  have h2 := List.all_eq_true.mp h1 c hc
  rw [hic] at h2
  simp only at h2
  rw [hip] at h2
  exact of_decide_eq_true h2

/-- A well-indexed sequence has no duplicates: each element determines its
position through the position index. -/
theorem sorted_nodup_of_sync (s : Hierarchy) (h : posIndexSyncB s = true) :
    s.sorted.Nodup := by
  have hH2 := posIndexSyncB_H2 s h
  rw [List.nodup_iff_injective_get]
  intro a b hab
  have ha := hH2 a.1 a.2
  have hb := hH2 b.1 b.2
  rw [List.getD_eq_getElem s.sorted 0 a.2] at ha
  rw [List.getD_eq_getElem s.sorted 0 b.2] at hb
  have hga : s.sorted[a.1] = s.sorted.get a := rfl
  have hgb : s.sorted[b.1] = s.sorted.get b := rfl
  rw [hga, hab, ← hgb, hb] at ha
  exact Fin.ext (Option.some.inj ha).symm

/-- **C8** (confirmed): on every state satisfying the data-model invariants
(position index in sync with the sequence, every recorded child indexed
strictly after its parent), the drained lazy iterator
`all_children_iter(root)` equals the sequence filtered to the recursive
expansion `all_children(root)`: it yields exactly the entities of
`all_children(root)`, each exactly once, excludes `root`, and lists them in
`all()`'s relative order (it is a sublist of the sorted sequence). -/
theorem c8_subtree_iterator_equivalence (s : Hierarchy) (root : Nat)
    (hsync : posIndexSyncB s = true) (hcs : childrenSyncB s = true) :
    allChildrenIter s root
      = s.sorted.filter (fun x => decide (x ∈ allChildren s root)) ∧
    (∀ x, x ∈ allChildrenIter s root ↔ x ∈ allChildren s root) ∧
    root ∉ allChildrenIter s root ∧
    List.Sublist (allChildrenIter s root) s.sorted ∧
    (allChildrenIter s root).Nodup := by
  have hH2 := posIndexSyncB_H2 s hsync
  have hH3 := posIndexSyncB_H3 s hsync
  have hH4 := childrenSyncB_H4 s hcs
  have hH5 := childrenSyncB_H5 s hcs
  have hiff := allChildren_iff_chain s (fun x i hh => (hH3 x i hh).1) hH4 hH5 root
  obtain ⟨hinv0, hlow⟩ := mk0_scanInv s root hH3 hH4 hH5
  have hmain : allChildrenIter s root
      = (s.sorted.drop (SubHierarchyIterator.mk0 s root).current_index).filter
        (fun x => decide (x ∈ allChildren s root)) := by
    unfold allChildrenIter
    exact drain_eq s root hH2 hH3 hH4 hH5 (s.sorted.length + 1)
      (SubHierarchyIterator.mk0 s root) hinv0 (by omega)
  have hfull : (s.sorted.drop 0).filter (fun x => decide (x ∈ allChildren s root))
      = (s.sorted.drop (SubHierarchyIterator.mk0 s root).current_index).filter
        (fun x => decide (x ∈ allChildren s root)) := by
    refine filter_drop_congr _ s.sorted
      (SubHierarchyIterator.mk0 s root).current_index 0
      (SubHierarchyIterator.mk0 s root).current_index
      (by omega) (Nat.zero_le _) ?_
    intro j _ hj2 hj3
    refine decide_eq_false ?_
    intro hmem
    obtain ⟨n, hch⟩ := (hiff _).mp hmem
    have := hlow _ n hch j (hH2 j hj3)
    omega
  have heq : allChildrenIter s root
      = s.sorted.filter (fun x => decide (x ∈ allChildren s root)) := by
    rw [hmain, ← hfull, List.drop_zero]
  have hnd : s.sorted.Nodup := sorted_nodup_of_sync s hsync
  refine ⟨heq, ?_, ?_, ?_, ?_⟩
  · intro x
    rw [heq, List.mem_filter]
    constructor
    · rintro ⟨_, hx⟩
      exact of_decide_eq_true hx
    · intro hx
      refine ⟨?_, decide_eq_true hx⟩
      obtain ⟨n, hch⟩ := (hiff _).mp hx
      obtain ⟨i, hi, _⟩ := ChildChain_idx s hH4 hH5 root x n hch
      obtain ⟨hlt, hget⟩ := hH3 x i hi
      rw [← hget, List.getD_eq_getElem s.sorted 0 hlt]
      exact List.getElem_mem hlt
  · rw [heq]
    intro hmem
    have hroot := of_decide_eq_true (List.mem_filter.mp hmem).2
    obtain ⟨n, hch⟩ := (hiff _).mp hroot
    obtain ⟨i, hi, _⟩ := ChildChain_idx s hH4 hH5 root root n hch
    obtain ⟨j, hj, hlt⟩ := ChildChain_idx_above s hH4 hH5 root i hi root n hch
    rw [hi] at hj
    obtain rfl := Option.some.inj hj
    omega
  · rw [heq]
    exact List.filter_sublist _
  · rw [heq]
    exact hnd.filter _

/-- The subtree-iterator equivalence evaluated on a concrete synced
three-entity chain rooted at entity 1. -/
theorem c8_subtree_iterator_equivalence_witness :
    posIndexSyncB c8state = true ∧ childrenSyncB c8state = true ∧
    (allChildrenIter c8state 1
        = c8state.sorted.filter (fun x => decide (x ∈ allChildren c8state 1)) ∧
      (2 ∈ allChildrenIter c8state 1 ↔ 2 ∈ allChildren c8state 1) ∧
      1 ∉ allChildrenIter c8state 1 ∧
      List.Sublist (allChildrenIter c8state 1) c8state.sorted ∧
      (allChildrenIter c8state 1).Nodup) :=
  have h := c8_subtree_iterator_equivalence c8state 1 (by decide) (by decide)
  ⟨by decide, by decide, h.1, h.2.1 2, h.2.2.1, h.2.2.2.1, h.2.2.2.2⟩

/-- **C1** (code bug): a single `maintain` from the empty hierarchy on the
acyclic inserted batch {1, 2, 3} with links 1 → 3, 2 → 4, 3 → 2 yields the
sequence [3, 1, 2], in which entity 3 sits at position 0 while its tracked
parent 2 sits at position 2: the documented parents-before-children
invariant of `all()` does not hold after `maintain`.  The insertion phase
places an entity no later than its recorded children but never checks its
own parent's position. -/
theorem c1_topological_invariant_violated :
    (maintain Hierarchy.empty (fun _ => true) c1parents [1, 2, 3] [] []).map
        (fun s' => (s'.all, alGet s'.current_parent 3, posIn s'.all 3, posIn s'.all 2,
          topoOkB s'))
      = some ([3, 1, 2], some 2, some 0, some 2, false) := by decide

/-- **C2** (code bug): after an invariant-satisfying first tick (both
checkers hold), a tick that reparents entity 1 under entity 2 produces the
sequence [2, 1] with position index {1 ↦ 0, 2 ↦ 0}: the index entry of the
entity at the last disturbed position is not rewritten, because the
reparent phase reindexes `entity_index..parent_index` instead of the whole
disturbed range `entity_index..=parent_index`. -/
theorem c2_position_index_out_of_sync :
    c2tick1.map (fun s1 => (posIndexSyncB s1, topoOkB s1)) = some (true, true) ∧
    c2tick2.map (fun s2 =>
        (s2.sorted, alGet s2.entities 1, alGet s2.entities 2, posIndexSyncB s2))
      = some ([2, 1], some 0, some 0, false) := by decide

/-- **C3** (code bug): after entity 1's link removal cascades entity 2 out
of the hierarchy (second tick, a clean state satisfying both invariant
checkers), a third tick that merely modifies 2's still-present component
makes `maintain` panic (modelled `none`): the
`entities.get(&entity.id()).unwrap()` of the reparent phase fails, so the
claimed totality over the documented preconditions does not hold. -/
theorem c3_modified_lookup_panics :
    c3tick2.map (fun s2 =>
        (s2.sorted, alGet s2.current_parent 2, posIndexSyncB s2, topoOkB s2))
      = some ([], none, true, true) ∧
    c3tick2.bind (fun s2 => maintain s2 (fun _ => true) c3parentsC [] [2] []) = none := by
  decide

/-- **C6** (code bug): from the invariant-satisfying sequence [2, 1, 3], a
batch modifying first 1 (new parent 3) and then 2 (new parent 1, not a
descendant of 2: 2 has no children entry) ends with the sequence [3, 2, 1]:
the reparented entity 2 sits at position 1, strictly before its new parent
1 at position 2, because the first modification left the position index
stale (the `entity_index..parent_index` reindex slip) and the second
modification then pulled the wrong entity forward. -/
theorem c6_reparent_breaks_order :
    c6pre.map (fun s2 =>
        (s2.sorted, posIndexSyncB s2, topoOkB s2, alGet s2.children 2))
      = some ([2, 1, 3], true, true, none) ∧
    c6tick3.map (fun s3 =>
        (s3.sorted, alGet s3.current_parent 2, posIn s3.sorted 2, posIn s3.sorted 1,
          topoOkB s3))
      = some ([3, 2, 1], some 1, some 1, some 2, false) :=
  And.intro (by decide) (by decide)

/-- **C5** (counterexample): on the state whose external-parents set is {5}
with no children-map entry for 5, a `maintain` call with all three event
sets empty removes 5 from the external-parents set — an observable state
change, refuting the claim for arbitrary index states.  (The final pruning
pass of `maintain` runs unconditionally.) -/
theorem c5_noop_tick_changes_state :
    (maintain c5state (fun _ => true) (fun _ => none) [] [] []).map
        (fun s' => s'.external_parents) = some [] ∧
    c5state.external_parents = [5] := by decide

/-- **C9** (counterexample): entity 5's children are recorded in event order
[1, 2, 3]; after a tick in which sibling 1's link is removed, `children(5)`
is [3, 2], not the event order [2, 3] of the remaining children, because
the removal phase detaches with `Vec::swap_remove`. -/
theorem c9_children_order_broken_by_sibling_removal :
    c9tick1.map (fun s1 => s1.childrenOf 5) = some [1, 2, 3] ∧
    c9tick2.map (fun s2 => s2.childrenOf 5) = some [3, 2] ∧
    c9tick2.map (fun s2 => s2.childrenOf 5) ≠ some [2, 3] := by decide

end SpecsHierarchy
